import Mathlib

/-!
# Order-book reconstruction: embedding of `reconstruction.cpp`

The C++ program replays market-by-order events against an in-memory order
book and writes one snapshot row per state-changing event.

Modelling conventions

* `double` prices are only stored, compared and printed by the program (no
  arithmetic is done on them), so a price is a rational number here; NaN and
  the text rendering of a price are outside the model.
* the `int` fields `size` and `count` of a price level are 32-bit: the result
  of `+=`, `++`, `-=` and `--` on them is brought back into the range
  -2147483648 .. 2147483647 by `wrapInt` (two's-complement wrap-around, which
  is what the compiled program stores), and every level of a book holds
  values of that range. The other `int` values (order ids, sizes carried by
  calls and events, sequence numbers, the row index that counts the rows
  written) are only copied, compared or counted, and are integers here.
* `std::map<K, V, Compare>` is a list of entries that is strictly sorted by
  key under `Compare`; `std::unordered_map<int, Order>` is never iterated by
  the program, so it is represented canonically as a map sorted by key.
* the output file is the list of rows written after the header, each row
  being the list of its columns before text formatting.
* the input file is the list of its lines, a line being its sequence of
  characters; the library functions `std::stoi` and `std::stod` are parameters
  of the decoder, and an exception they throw is the result `none`.
-/

namespace OrderBookReconstruction

/-! ## Associative containers -/

section Container

variable {K V : Type}

/-- The lookup `m.find(k)`: the value of the first entry with key `k`. -/
def findEntry [DecidableEq K] (k : K) : List (K × V) → Option V
  | [] => none
  | e :: rest => if e.1 = k then some e.2 else findEntry k rest

/-- Insert-or-assign at key `k`, keeping the `lt` order of the keys. -/
def insertEntry (lt : K → K → Prop) [DecidableRel lt] [DecidableEq K] (k : K) (v : V) :
    List (K × V) → List (K × V)
  | [] => [(k, v)]
  | e :: rest =>
    if e.1 = k then (k, v) :: rest
    else if lt k e.1 then (k, v) :: e :: rest
    else e :: insertEntry lt k v rest

/-- The removal `m.erase(it)` of the entry with key `k`. -/
def eraseEntry [DecidableEq K] (k : K) : List (K × V) → List (K × V)
  | [] => []
  | e :: rest => if e.1 = k then rest else e :: eraseEntry k rest

/-- A `std::map` with comparison `lt`: entries strictly sorted by key. -/
structure SortedMap (K V : Type) (lt : K → K → Prop) where
  /-- The entries in iteration order, from `begin()` to `end()`. -/
  entries : List (K × V)
  /-- Keys are strictly increasing for `lt`. -/
  sorted : entries.Pairwise (fun a b => lt a.1 b.1)

theorem findEntry_insertEntry (lt : K → K → Prop) [DecidableRel lt] [DecidableEq K]
    (k k' : K) (v : V) (l : List (K × V)) :
    findEntry k' (insertEntry lt k v l) = if k' = k then some v else findEntry k' l := by
  induction l with
  | nil =>
    by_cases h : k' = k
    · simp [insertEntry, findEntry, h]
    · have h' : ¬ k = k' := fun e => h e.symm
      simp [insertEntry, findEntry, h, h']
  | cons e rest ih =>
    by_cases h : k' = k
    · subst h
      unfold insertEntry
      by_cases h1 : e.1 = k'
      · simp [h1, findEntry]
      · by_cases h2 : lt k' e.1
        · simp [h1, h2, findEntry]
        · simp only [h1, h2, if_false, findEntry, ih, if_true]
    · have h' : ¬ k = k' := fun e => h e.symm
      unfold insertEntry
      by_cases h1 : e.1 = k
      · have h3 : ¬ e.1 = k' := fun e' => h (e'.symm.trans h1)
        simp [h1, findEntry, h, h', h3]
      · by_cases h2 : lt k e.1
        · simp [h1, h2, findEntry, h, h']
        · simp only [h1, h2, if_false, findEntry, ih, h]

theorem mem_insertEntry (lt : K → K → Prop) [DecidableRel lt] [DecidableEq K]
    (k : K) (v : V) (l : List (K × V)) (x : K × V) (hx : x ∈ insertEntry lt k v l) :
    x = (k, v) ∨ x ∈ l := by
  induction l with
  | nil => simpa [insertEntry] using hx
  | cons e rest ih =>
    unfold insertEntry at hx
    by_cases h1 : e.1 = k
    · simp only [h1, if_true, List.mem_cons] at hx
      rcases hx with hx | hx
      · exact Or.inl hx
      · exact Or.inr (List.mem_cons_of_mem _ hx)
    · by_cases h2 : lt k e.1
      · simp only [h1, h2, if_false, if_true, List.mem_cons] at hx
        rcases hx with hx | hx | hx
        · exact Or.inl hx
        · exact Or.inr (by simp [hx])
        · exact Or.inr (List.mem_cons_of_mem _ hx)
      · simp only [h1, h2, if_false, List.mem_cons] at hx
        rcases hx with hx | hx
        · exact Or.inr (by simp [hx])
        · rcases ih hx with h | h
          · exact Or.inl h
          · exact Or.inr (List.mem_cons_of_mem _ h)

theorem sorted_insertEntry (lt : K → K → Prop) [DecidableRel lt] [DecidableEq K]
    [IsTrichotomous K lt] [IsTrans K lt] (k : K) (v : V) (l : List (K × V))
    (hl : l.Pairwise (fun a b => lt a.1 b.1)) :
    (insertEntry lt k v l).Pairwise (fun a b => lt a.1 b.1) := by
  induction l with
  | nil => simp [insertEntry]
  | cons e rest ih =>
    rw [List.pairwise_cons] at hl
    unfold insertEntry
    by_cases h1 : e.1 = k
    · simp only [h1, if_true, List.pairwise_cons]
      exact ⟨fun a ha => h1 ▸ hl.1 a ha, hl.2⟩
    · by_cases h2 : lt k e.1
      · simp only [h1, h2, if_false, if_true, List.pairwise_cons]
        refine ⟨?_, hl.1, hl.2⟩
        intro a ha
        rcases List.mem_cons.1 ha with ha | ha
        · rw [ha]; exact h2
        · exact IsTrans.trans _ _ _ h2 (hl.1 a ha)
      · simp only [h1, h2, if_false, List.pairwise_cons]
        refine ⟨?_, ih hl.2⟩
        intro a ha
        rcases mem_insertEntry lt k v rest a ha with ha | ha
        · rw [ha]
          rcases trichotomous_of lt k e.1 with h | h | h
          · exact absurd h h2
          · exact absurd h.symm h1
          · exact h
        · exact hl.1 a ha

theorem mem_eraseEntry [DecidableEq K] (k : K) (l : List (K × V)) (x : K × V)
    (hx : x ∈ eraseEntry k l) : x ∈ l := by
  induction l with
  | nil => simp [eraseEntry] at hx
  | cons e rest ih =>
    unfold eraseEntry at hx
    by_cases h1 : e.1 = k
    · simp only [h1, if_true] at hx
      exact List.mem_cons_of_mem _ hx
    · simp only [h1, if_false, List.mem_cons] at hx
      rcases hx with hx | hx
      · simp [hx]
      · exact List.mem_cons_of_mem _ (ih hx)

theorem sorted_eraseEntry (lt : K → K → Prop) [DecidableEq K] (k : K) (l : List (K × V))
    (hl : l.Pairwise (fun a b => lt a.1 b.1)) :
    (eraseEntry k l).Pairwise (fun a b => lt a.1 b.1) := by
  induction l with
  | nil => simp [eraseEntry]
  | cons e rest ih =>
    rw [List.pairwise_cons] at hl
    unfold eraseEntry
    by_cases h1 : e.1 = k
    · simp only [h1, if_true]; exact hl.2
    · simp only [h1, if_false, List.pairwise_cons]
      exact ⟨fun a ha => hl.1 a (mem_eraseEntry k rest a ha), ih hl.2⟩

theorem findEntry_eq_none [DecidableEq K] (k : K) (l : List (K × V))
    (h : ∀ x ∈ l, x.1 ≠ k) : findEntry k l = none := by
  induction l with
  | nil => rfl
  | cons e rest ih =>
    have h1 : ¬ e.1 = k := h e (List.mem_cons_self _ _)
    simp only [findEntry, h1, if_false]
    exact ih (fun x hx => h x (List.mem_cons_of_mem _ hx))

theorem mem_of_findEntry [DecidableEq K] (k : K) (v : V) (l : List (K × V))
    (h : findEntry k l = some v) : (k, v) ∈ l := by
  induction l with
  | nil => simp [findEntry] at h
  | cons e rest ih =>
    unfold findEntry at h
    by_cases h1 : e.1 = k
    · simp only [h1, if_true, Option.some.injEq] at h
      have : e = (k, v) := Prod.ext h1 h
      simp [this]
    · simp only [h1, if_false] at h
      exact List.mem_cons_of_mem _ (ih h)

theorem findEntry_of_mem (lt : K → K → Prop) [DecidableEq K] [IsIrrefl K lt]
    (k : K) (v : V) (l : List (K × V)) (hl : l.Pairwise (fun a b => lt a.1 b.1))
    (h : (k, v) ∈ l) : findEntry k l = some v := by
  induction l with
  | nil => simp at h
  | cons e rest ih =>
    rw [List.pairwise_cons] at hl
    unfold findEntry
    rcases List.mem_cons.1 h with h | h
    · simp [← h]
    · have h1 : ¬ e.1 = k := by
        intro he
        have := hl.1 _ h
        rw [he] at this
        exact irrefl_of lt k this
      simp only [h1, if_false]
      exact ih hl.2 h

theorem findEntry_eraseEntry (lt : K → K → Prop) [DecidableEq K] [IsIrrefl K lt]
    (k k' : K) (l : List (K × V)) (hl : l.Pairwise (fun a b => lt a.1 b.1)) :
    findEntry k' (eraseEntry k l) = if k' = k then none else findEntry k' l := by
  induction l with
  | nil => simp [eraseEntry, findEntry]
  | cons e rest ih =>
    rw [List.pairwise_cons] at hl
    unfold eraseEntry
    by_cases h1 : e.1 = k
    · simp only [h1, if_true]
      by_cases h : k' = k
      · simp only [h, if_true]
        apply findEntry_eq_none
        intro x hx hk
        have := hl.1 x hx
        rw [h1, hk] at this
        exact irrefl_of lt k this
      · have h3 : ¬ e.1 = k' := fun e' => h (e'.symm.trans h1)
        simp [findEntry, h, h3]
    · simp only [h1, if_false, findEntry, ih hl.2]
      by_cases h : k' = k
      · subst h
        simp [h1]
      · simp [h]

theorem entries_ext (lt : K → K → Prop) [DecidableEq K] [IsIrrefl K lt] [IsTrans K lt]
    (l₁ l₂ : List (K × V)) (h₁ : l₁.Pairwise (fun a b => lt a.1 b.1))
    (h₂ : l₂.Pairwise (fun a b => lt a.1 b.1))
    (h : ∀ k, findEntry k l₁ = findEntry k l₂) : l₁ = l₂ := by
  induction l₁ generalizing l₂ with
  | nil =>
    cases l₂ with
    | nil => rfl
    | cons e rest =>
      have := h e.1
      simp [findEntry] at this
  | cons e₁ r₁ ih =>
    cases l₂ with
    | nil =>
      have := h e₁.1
      simp [findEntry] at this
    | cons e₂ r₂ =>
      rw [List.pairwise_cons] at h₁ h₂
      have hk : e₁.1 = e₂.1 := by
        by_contra hne
        have a1 : findEntry e₁.1 (e₂ :: r₂) = some e₁.2 := by
          rw [← h]; simp [findEntry]
        have a2 : findEntry e₂.1 (e₁ :: r₁) = some e₂.2 := by
          rw [h]; simp [findEntry]
        have m1 := mem_of_findEntry _ _ _ a1
        have m2 := mem_of_findEntry _ _ _ a2
        rcases List.mem_cons.1 m1 with m1 | m1
        · exact hne (congrArg Prod.fst m1)
        rcases List.mem_cons.1 m2 with m2 | m2
        · exact hne (congrArg Prod.fst m2).symm
        have c1 := h₂.1 _ m1
        have c2 := h₁.1 _ m2
        exact irrefl_of lt _ (IsTrans.trans _ _ _ c1 c2)
      have hv : e₁.2 = e₂.2 := by
        have := h e₁.1
        simp [findEntry, hk] at this
        exact this
      have he : e₁ = e₂ := Prod.ext hk hv
      subst he
      congr 1
      apply ih r₂ h₁.2 h₂.2
      intro k
      by_cases hke : e₁.1 = k
      · rw [findEntry_eq_none k r₁, findEntry_eq_none k r₂]
        · intro x hx hxk
          have := h₂.1 x hx
          rw [hke, hxk] at this
          exact irrefl_of lt k this
        · intro x hx hxk
          have := h₁.1 x hx
          rw [hke, hxk] at this
          exact irrefl_of lt k this
      · have := h k
        simpa [findEntry, hke] using this

namespace SortedMap

variable {lt : K → K → Prop}

/-- The empty container, also the result of `m.clear()`. -/
def empty : SortedMap K V lt := ⟨[], List.Pairwise.nil⟩

/-- The lookup `m.find(k)`; `none` stands for `m.end()`. -/
def find [DecidableEq K] (m : SortedMap K V lt) (k : K) : Option V :=
  findEntry k m.entries

/-- Insert-or-assign: `m[k] = v`. -/
def insert [DecidableRel lt] [DecidableEq K] [IsTrichotomous K lt] [IsTrans K lt]
    (m : SortedMap K V lt) (k : K) (v : V) : SortedMap K V lt :=
  ⟨insertEntry lt k v m.entries, sorted_insertEntry lt k v m.entries m.sorted⟩

/-- The removal `m.erase(it)` where `it` points at key `k`. -/
def erase [DecidableEq K] (m : SortedMap K V lt) (k : K) : SortedMap K V lt :=
  ⟨eraseEntry k m.entries, sorted_eraseEntry lt k m.entries m.sorted⟩

theorem eq_of_entries {m₁ m₂ : SortedMap K V lt} (h : m₁.entries = m₂.entries) : m₁ = m₂ := by
  cases m₁; cases m₂; cases h; rfl

instance [DecidableEq K] [DecidableEq V] : DecidableEq (SortedMap K V lt) := fun a b =>
  decidable_of_iff (a.entries = b.entries) ⟨eq_of_entries, fun h => congrArg _ h⟩

theorem ext [DecidableEq K] [IsIrrefl K lt] [IsTrans K lt] {m₁ m₂ : SortedMap K V lt}
    (h : ∀ k, m₁.find k = m₂.find k) : m₁ = m₂ :=
  eq_of_entries (entries_ext lt _ _ m₁.sorted m₂.sorted h)

@[simp] theorem find_empty [DecidableEq K] (k : K) : (empty : SortedMap K V lt).find k = none := rfl

theorem find_insert [DecidableRel lt] [DecidableEq K] [IsTrichotomous K lt] [IsTrans K lt]
    (m : SortedMap K V lt) (k k' : K) (v : V) :
    (m.insert k v).find k' = if k' = k then some v else m.find k' :=
  findEntry_insertEntry lt k k' v m.entries

theorem find_erase [DecidableEq K] [IsIrrefl K lt] (m : SortedMap K V lt) (k k' : K) :
    (m.erase k).find k' = if k' = k then none else m.find k' :=
  findEntry_eraseEntry lt k k' m.entries m.sorted

theorem mem_of_find [DecidableEq K] (m : SortedMap K V lt) (k : K) (v : V)
    (h : m.find k = some v) : (k, v) ∈ m.entries :=
  mem_of_findEntry k v m.entries h

theorem find_of_mem [DecidableEq K] [IsIrrefl K lt] (m : SortedMap K V lt) (k : K) (v : V)
    (h : (k, v) ∈ m.entries) : m.find k = some v :=
  findEntry_of_mem lt k v m.entries m.sorted h

end SortedMap

end Container

/-! ## Data model -/

/-- A price, `double` in the source. -/
abbrev Price := ℚ

/-- The struct `OrderBookLevel`. -/
structure OrderBookLevel where
  price : Price
  size : Int
  count : Int
deriving DecidableEq, Repr

/-- The default constructor `OrderBookLevel()`. -/
instance : Inhabited OrderBookLevel := ⟨⟨0, 0, 0⟩⟩

/-- The struct `Order`. -/
structure Order where
  order_id : Int
  side : Char
  price : Price
  size : Int
deriving DecidableEq, Repr

/-- The smallest value of the 32-bit C++ `int`. -/
def intMin : Int := -2147483648

/-- The largest value of the 32-bit C++ `int`. -/
def intMax : Int := 2147483647

/-- The value stored by `int` arithmetic whose mathematical result is `x`: the
number of the `int` range that differs from `x` by a multiple of `2^32`
(two's-complement wrap-around; equal to `x` when `x` is in the range). -/
def wrapInt (x : Int) : Int :=
  (x + 2147483648) % 4294967296 - 2147483648

theorem wrapInt_range (x : Int) : intMin ≤ wrapInt x ∧ wrapInt x ≤ intMax := by
  unfold intMin intMax wrapInt
  omega

theorem wrapInt_of_range (x : Int) (h₁ : intMin ≤ x) (h₂ : x ≤ intMax) : wrapInt x = x := by
  unfold intMin intMax at *
  unfold wrapInt
  omega

/-- Every level is stored under its own price. -/
def Keyed {lt : Price → Price → Prop} (m : SortedMap Price OrderBookLevel lt) : Prop :=
  ∀ e ∈ m.entries, e.2.price = e.1

/-- The size and the count of every level are values of the type `int`. -/
def InRange {lt : Price → Price → Prop} (m : SortedMap Price OrderBookLevel lt) : Prop :=
  ∀ e ∈ m.entries,
    intMin ≤ e.2.size ∧ e.2.size ≤ intMax ∧ intMin ≤ e.2.count ∧ e.2.count ≤ intMax

section Levels

variable {lt : Price → Price → Prop} [DecidableRel lt] [IsTrichotomous Price lt]
  [IsTrans Price lt]

/-- The three statements `m[price].price = price; m[price].size += size;
m[price].count++` of `addOrder`, where `m[price]` default-constructs a
missing level; `+=` and `++` are `int` arithmetic. -/
def addLevel (m : SortedMap Price OrderBookLevel lt) (price : Price) (size : Int) :
    SortedMap Price OrderBookLevel lt :=
  let l := (m.find price).getD default
  m.insert price ⟨price, wrapInt (l.size + size), wrapInt (l.count + 1)⟩

/-- The block of `cancelOrder` for one side: find the level of the order's
price; if it exists, subtract the order's size, decrement the count and erase
the level when the remaining size is `<= 0`; `-=` and `--` are `int`
arithmetic. -/
def cancelLevel (m : SortedMap Price OrderBookLevel lt) (price : Price) (size : Int) :
    SortedMap Price OrderBookLevel lt :=
  match m.find price with
  | none => m
  | some l =>
    if wrapInt (l.size - size) ≤ 0 then m.erase price
    else m.insert price ⟨l.price, wrapInt (l.size - size), wrapInt (l.count - 1)⟩

theorem keyed_addLevel (m : SortedMap Price OrderBookLevel lt) (price : Price) (size : Int)
    (h : Keyed m) : Keyed (addLevel m price size) := by
  intro e he
  rcases mem_insertEntry lt _ _ _ e he with he | he
  · rw [he]
  · exact h e he

theorem keyed_cancelLevel (m : SortedMap Price OrderBookLevel lt) (price : Price)
    (size : Int) (h : Keyed m) : Keyed (cancelLevel m price size) := by
  unfold cancelLevel
  cases hf : m.find price with
  | none => exact h
  | some l =>
    simp only
    split
    · intro e he
      exact h e (mem_eraseEntry _ _ e he)
    · intro e he
      rcases mem_insertEntry lt _ _ _ e he with he | he
      · rw [he]
        exact h (price, l) (m.mem_of_find price l hf)
      · exact h e he

theorem inRange_addLevel (m : SortedMap Price OrderBookLevel lt) (price : Price) (size : Int)
    (h : InRange m) : InRange (addLevel m price size) := by
  intro e he
  rcases mem_insertEntry lt _ _ _ e he with he | he
  · rw [he]
    exact ⟨(wrapInt_range _).1, (wrapInt_range _).2, (wrapInt_range _).1, (wrapInt_range _).2⟩
  · exact h e he

theorem inRange_cancelLevel (m : SortedMap Price OrderBookLevel lt) (price : Price)
    (size : Int) (h : InRange m) : InRange (cancelLevel m price size) := by
  unfold cancelLevel
  cases hf : m.find price with
  | none => exact h
  | some l =>
    simp only
    split
    · intro e he
      exact h e (mem_eraseEntry _ _ e he)
    · intro e he
      rcases mem_insertEntry lt _ _ _ e he with he | he
      · rw [he]
        exact ⟨(wrapInt_range _).1, (wrapInt_range _).2, (wrapInt_range _).1,
          (wrapInt_range _).2⟩
      · exact h e he

end Levels

/-- The class `OrderBook`: bids in descending and asks in ascending price
order, and the index of live orders by order id. -/
structure OrderBook where
  bids : SortedMap Price OrderBookLevel (· > ·)
  asks : SortedMap Price OrderBookLevel (· < ·)
  orders : SortedMap Int Order (· < ·)
  /-- Levels are only ever written through `bids[price].price = price`. -/
  bids_keyed : Keyed bids
  /-- Levels are only ever written through `asks[price].price = price`. -/
  asks_keyed : Keyed asks
  /-- The members `size` and `count` of a bid level have type `int`. -/
  bids_range : InRange bids
  /-- The members `size` and `count` of an ask level have type `int`. -/
  asks_range : InRange asks

namespace OrderBook

theorem eq_of_parts {a b : OrderBook} (h₁ : a.bids = b.bids) (h₂ : a.asks = b.asks)
    (h₃ : a.orders = b.orders) : a = b := by
  cases a; cases b; cases h₁; cases h₂; cases h₃; rfl

instance : DecidableEq OrderBook := fun a b =>
  decidable_of_iff (a.bids = b.bids ∧ a.asks = b.asks ∧ a.orders = b.orders)
    ⟨fun h => eq_of_parts h.1 h.2.1 h.2.2, fun h => by subst h; exact ⟨rfl, rfl, rfl⟩⟩

/-- A freshly constructed book. -/
def empty : OrderBook :=
  ⟨SortedMap.empty, SortedMap.empty, SortedMap.empty,
    fun _ h => absurd h (List.not_mem_nil _), fun _ h => absurd h (List.not_mem_nil _),
    fun _ h => absurd h (List.not_mem_nil _), fun _ h => absurd h (List.not_mem_nil _)⟩

/-- The method `addOrder`. -/
def addOrder (b : OrderBook) (order_id : Int) (side : Char) (price : Price) (size : Int) :
    OrderBook :=
  let orders := b.orders.insert order_id ⟨order_id, side, price, size⟩
  if side = 'B' then
    ⟨addLevel b.bids price size, b.asks, orders,
      keyed_addLevel b.bids price size b.bids_keyed, b.asks_keyed,
      inRange_addLevel b.bids price size b.bids_range, b.asks_range⟩
  else if side = 'A' then
    ⟨b.bids, addLevel b.asks price size, orders,
      b.bids_keyed, keyed_addLevel b.asks price size b.asks_keyed,
      b.bids_range, inRange_addLevel b.asks price size b.asks_range⟩
  else
    ⟨b.bids, b.asks, orders, b.bids_keyed, b.asks_keyed, b.bids_range, b.asks_range⟩

/-- The method `cancelOrder`. -/
def cancelOrder (b : OrderBook) (order_id : Int) : OrderBook :=
  match b.orders.find order_id with
  | none => b
  | some order =>
    if order.side = 'B' then
      ⟨cancelLevel b.bids order.price order.size, b.asks, b.orders.erase order_id,
        keyed_cancelLevel b.bids order.price order.size b.bids_keyed, b.asks_keyed,
        inRange_cancelLevel b.bids order.price order.size b.bids_range, b.asks_range⟩
    else if order.side = 'A' then
      ⟨b.bids, cancelLevel b.asks order.price order.size, b.orders.erase order_id,
        b.bids_keyed, keyed_cancelLevel b.asks order.price order.size b.asks_keyed,
        b.bids_range, inRange_cancelLevel b.asks order.price order.size b.asks_range⟩
    else
      ⟨b.bids, b.asks, b.orders.erase order_id, b.bids_keyed, b.asks_keyed,
        b.bids_range, b.asks_range⟩

/-- The method `modifyOrder`: the order is looked up after `cancelOrder` ran. -/
def modifyOrder (b : OrderBook) (order_id : Int) (new_price : Price) (new_size : Int) :
    OrderBook :=
  let b₁ := b.cancelOrder order_id
  match b₁.orders.find order_id with
  | some order => b₁.addOrder order_id order.side new_price new_size
  | none => b₁

/-- The method `clear`. -/
def clear (_b : OrderBook) : OrderBook := empty

/-- The loop `for (i = 0; i < depth && it != end; ++i, ++it) push_back(it->second)`
of `getBids` and `getAsks`, started at counter `i`. -/
def collectLevels (depth : Int) : Int → List (Price × OrderBookLevel) → List OrderBookLevel
  | _, [] => []
  | i, e :: rest => if i < depth then e.2 :: collectLevels depth (i + 1) rest else []

/-- The method `getBids`. -/
def getBids (b : OrderBook) (depth : Int) : List OrderBookLevel :=
  collectLevels depth 0 b.bids.entries

/-- The method `getAsks`. -/
def getAsks (b : OrderBook) (depth : Int) : List OrderBookLevel :=
  collectLevels depth 0 b.asks.entries

end OrderBook

/-! ## Reconstruction engine -/

/-- The struct `MBORecord`: one decoded input record. -/
structure MBORecord where
  ts_recv : String
  ts_event : String
  rtype : Int
  publisher_id : Int
  instrument_id : Int
  action : Char
  side : Char
  price : Price
  size : Int
  channel_id : Int
  order_id : Int
  flags : Int
  ts_in_delta : Int
  sequence : Int
  symbol : String
deriving DecidableEq, Repr

namespace CSVParser

/-- The loop `while (std::getline(ss, field, ',')) result.push_back(field)` of
`parseLine` over the characters left in the stream. `field` holds what has
been extracted for the current field and `extracted` tells whether anything
has been extracted for it: at the end of the stream `getline` succeeds only
if it extracted something, so a line ending in a comma gets no empty last
field. -/
def splitFields : List Char → List Char → Bool → List String
  | [], field, extracted => if extracted then [String.mk field] else []
  | c :: rest, field, _ =>
    if c = ',' then String.mk field :: splitFields rest [] false
    else splitFields rest (field ++ [c]) true

/-- The function `parseLine`. -/
def parseLine (line : String) : List String :=
  splitFields line.data [] false

/-- The expression `field.empty() ? 'N' : field[0]` of `parseMBORecord`. -/
def firstCharOrN (field : String) : Char :=
  match field.data with
  | [] => 'N'
  | c :: _ => c

/-- The function `parseMBORecord` on at least 15 fields. The library
functions `std::stoi` and `std::stod` are parameters; their result `none`
stands for the exception they throw on text that is not a number in range,
and so does the result `none` here. With fewer than 15 fields the source
returns a record whose numeric members are indeterminate; `processFile`
never asks for it, and the result is `none` as well. -/
def parseMBORecord (stoi : String → Option Int) (stod : String → Option Price)
    (fields : List String) : Option MBORecord :=
  match fields with
  | f0 :: f1 :: f2 :: f3 :: f4 :: f5 :: f6 :: f7 :: f8 :: f9 :: f10 :: f11 :: f12 :: f13
      :: f14 :: _ =>
    (stoi f2).bind fun rtype =>
    (stoi f3).bind fun publisher_id =>
    (stoi f4).bind fun instrument_id =>
    (if f7.data = [] then some 0 else stod f7).bind fun price =>
    (if f8.data = [] then some 0 else stoi f8).bind fun size =>
    (stoi f9).bind fun channel_id =>
    (stoi f10).bind fun order_id =>
    (stoi f11).bind fun flags =>
    (stoi f12).bind fun ts_in_delta =>
    (stoi f13).bind fun sequence =>
    some
      { ts_recv := f0
        ts_event := f1
        rtype := rtype
        publisher_id := publisher_id
        instrument_id := instrument_id
        action := firstCharOrN f5
        side := firstCharOrN f6
        price := price
        size := size
        channel_id := channel_id
        order_id := order_id
        flags := flags
        ts_in_delta := ts_in_delta
        sequence := sequence
        symbol := f14 }
  | _ => none

end CSVParser

/-- The struct `PendingTrade` of `OrderBookReconstructor`. -/
structure PendingTrade where
  ts_recv : String
  ts_event : String
  rtype : Int
  publisher_id : Int
  instrument_id : Int
  actual_side : Char
  price : Price
  size : Int
  flags : Int
  ts_in_delta : Int
  sequence : Int
  symbol : String
  order_id : Int
deriving DecidableEq, Repr

/-- The three columns written for one rank of one side of the book; an empty
price column is `none`. -/
structure LevelColumns where
  price : Option Price
  size : Int
  count : Int
deriving DecidableEq, Repr

/-- One line written by `writeMBPRecord`, column by column in the order of
the header; the event price column is `none` when nothing is written to it. -/
structure Row where
  index : Int
  ts_recv : String
  ts_event : String
  rtype : Int
  publisher_id : Int
  instrument_id : Int
  action : Char
  side : Char
  depth : Int
  price : Option Price
  size : Int
  flags : Int
  ts_in_delta : Int
  sequence : Int
  levels : List (LevelColumns × LevelColumns)
  symbol : String
  order_id : Int
deriving DecidableEq, Repr

/-- The class `OrderBookReconstructor`; `output` holds the rows written to
`output_file` after the header, oldest first. -/
structure OrderBookReconstructor where
  orderbook : OrderBook
  row_index : Int
  pending_trades : List PendingTrade
  output : List Row
deriving DecidableEq

namespace OrderBookReconstructor

/-- The state after the constructor has run. -/
def fresh : OrderBookReconstructor := ⟨OrderBook.empty, 0, [], []⟩

/-- The columns of rank `i` in `writeMBPRecord`: the level when
`i < levels.size()`, otherwise an empty price and zero size and count. -/
def levelColumns (levels : List OrderBookLevel) (i : Nat) : LevelColumns :=
  match levels.get? i with
  | some l => ⟨some l.price, l.size, l.count⟩
  | none => ⟨none, 0, 0⟩

/-- The event price column of `writeMBPRecord`: written only if `price > 0`. -/
def priceColumn (price : Price) : Option Price :=
  if price > 0 then some price else none

/-- The method `writeMBPRecord`. The `ts_recv` column receives
`record.ts_event` and the `rtype` column the constant `10`, as in the source. -/
def writeMBPRecord (r : OrderBookReconstructor) (record : MBORecord)
    (effective_action effective_side : Char) (depth : Int) : OrderBookReconstructor :=
  let bids := r.orderbook.getBids 10
  let asks := r.orderbook.getAsks 10
  let row : Row :=
    { index := r.row_index
      ts_recv := record.ts_event
      ts_event := record.ts_event
      rtype := 10
      publisher_id := record.publisher_id
      instrument_id := record.instrument_id
      action := effective_action
      side := effective_side
      depth := depth
      price := priceColumn record.price
      size := record.size
      flags := record.flags
      ts_in_delta := record.ts_in_delta
      sequence := record.sequence
      levels := (List.range 10).map (fun i => (levelColumns bids i, levelColumns asks i))
      symbol := record.symbol
      order_id := record.order_id }
  { r with output := r.output ++ [row], row_index := r.row_index + 1 }

/-- The depth scan `for (i = 0; i < levels.size(); ++i) if (levels[i].price == price)
{ depth = i; break; }` started at index `i`, with `depth` initialised to `0`. -/
def scanDepth (price : Price) : Int → List OrderBookLevel → Int
  | _, [] => 0
  | i, l :: rest => if l.price = price then i else scanDepth price (i + 1) rest

/-- The `PendingTrade` stored by the Trade branch of `processRecord`. -/
def pendingOf (record : MBORecord) : PendingTrade :=
  { ts_recv := record.ts_recv
    ts_event := record.ts_event
    rtype := record.rtype
    publisher_id := record.publisher_id
    instrument_id := record.instrument_id
    actual_side := if record.side = 'B' then 'A' else 'B'
    price := record.price
    size := record.size
    flags := record.flags
    ts_in_delta := record.ts_in_delta
    sequence := record.sequence
    symbol := record.symbol
    order_id := record.order_id }

/-- The method `processRecord`. In the Cancel branch the loop over
`pending_trades` stops at the first entry whose sequence equals the
record's, which is then erased. -/
def processRecord (r : OrderBookReconstructor) (record : MBORecord) :
    OrderBookReconstructor :=
  if record.action = 'R' then
    writeMBPRecord { r with orderbook := r.orderbook.clear } record 'R' 'N' 0
  else if record.action = 'T' then
    if record.side = 'N' then r
    else { r with pending_trades := r.pending_trades ++ [pendingOf record] }
  else if record.action = 'F' then r
  else if record.action = 'C' then
    match r.pending_trades.find? (fun t => t.sequence = record.sequence) with
    | some t =>
      let r₁ := { r with orderbook := r.orderbook.cancelOrder record.order_id }
      let trade_record :=
        { record with action := 'T', side := t.actual_side, price := t.price, size := t.size }
      let depth :=
        if t.actual_side = 'B' then scanDepth t.price 0 (r₁.orderbook.getBids 10)
        else scanDepth t.price 0 (r₁.orderbook.getAsks 10)
      let r₂ := writeMBPRecord r₁ trade_record 'T' t.actual_side depth
      { r₂ with
        pending_trades := r₂.pending_trades.eraseP (fun t => t.sequence = record.sequence) }
    | none =>
      let depth :=
        if record.side = 'B' then scanDepth record.price 0 (r.orderbook.getBids 10)
        else if record.side = 'A' then scanDepth record.price 0 (r.orderbook.getAsks 10)
        else 0
      writeMBPRecord { r with orderbook := r.orderbook.cancelOrder record.order_id }
        record 'C' record.side depth
  else if record.action = 'A' then
    let r₁ :=
      { r with
        orderbook := r.orderbook.addOrder record.order_id record.side record.price record.size }
    let depth :=
      if record.side = 'B' then scanDepth record.price 0 (r₁.orderbook.getBids 10)
      else if record.side = 'A' then scanDepth record.price 0 (r₁.orderbook.getAsks 10)
      else 0
    writeMBPRecord r₁ record 'A' record.side depth
  else if record.action = 'M' then
    writeMBPRecord
      { r with orderbook := r.orderbook.modifyOrder record.order_id record.price record.size }
      record 'M' record.side 0
  else r

/-- The records of a stream handed to `processRecord` one after the other. -/
def processAll (r : OrderBookReconstructor) (records : List MBORecord) :
    OrderBookReconstructor :=
  records.foldl processRecord r

/-- The body of the loop of `processFile` for one data line: the line is
split, and only a line of at least 15 fields is decoded and processed.
`none` stands for an exception thrown while decoding. -/
def processLine (stoi : String → Option Int) (stod : String → Option Price)
    (r : OrderBookReconstructor) (line : String) : Option OrderBookReconstructor :=
  let fields := CSVParser.parseLine line
  if 15 ≤ fields.length then
    (CSVParser.parseMBORecord stoi stod fields).map (processRecord r)
  else some r

/-- The loop `while (std::getline(file, line))` of `processFile` over the
lines still to be read, with the flag `first_line`. -/
def processFileLoop (stoi : String → Option Int) (stod : String → Option Price) :
    Bool → OrderBookReconstructor → List String → Option OrderBookReconstructor
  | _, r, [] => some r
  | true, r, _ :: rest => processFileLoop stoi stod false r rest
  | false, r, line :: rest =>
    (processLine stoi stod r line).bind fun r' => processFileLoop stoi stod false r' rest

/-- The method `processFile` on a file that could be opened, given as the
list of its lines. -/
def processFile (stoi : String → Option Int) (stod : String → Option Price)
    (r : OrderBookReconstructor) (lines : List String) : Option OrderBookReconstructor :=
  processFileLoop stoi stod true r lines

end OrderBookReconstructor

/-! ## Vocabulary of the specification -/

namespace OrderBook

/-- The level stored at `price` on `side` (`'B'` bids, `'A'` asks), if any. -/
def levelAt (b : OrderBook) (side : Char) (price : Price) : Option OrderBookLevel :=
  if side = 'B' then b.bids.find price
  else if side = 'A' then b.asks.find price
  else none

/-- The aggregate size stored at `price` on `side`; `0` when there is no level. -/
def levelSize (b : OrderBook) (side : Char) (price : Price) : Int :=
  match b.levelAt side price with
  | some l => l.size
  | none => 0

/-- The order count stored at `price` on `side`; `0` when there is no level. -/
def levelCount (b : OrderBook) (side : Char) (price : Price) : Int :=
  match b.levelAt side price with
  | some l => l.count
  | none => 0

/-- The live orders of the index that rest at `price` on `side`. -/
def liveOrders (b : OrderBook) (side : Char) (price : Price) : List Order :=
  (b.orders.entries.map (fun e => e.2)).filter (fun o => o.side = side ∧ o.price = price)

/-- The sum of the sizes of the live orders at `price` on `side`. -/
def liveSize (b : OrderBook) (side : Char) (price : Price) : Int :=
  ((b.liveOrders side price).map (fun o => o.size)).sum

/-- The number of live orders at `price` on `side`. -/
def liveCount (b : OrderBook) (side : Char) (price : Price) : Int :=
  (b.liveOrders side price).length

/-- Every live order has a size `> 0`. -/
def AllPositive (b : OrderBook) : Prop := ∀ e ∈ b.orders.entries, 0 < e.2.size

/-- Invariant of books built from `addOrder` calls with sizes `> 0`: every
live order has a positive size, no live order rests where no level is, and
every level has positive size and count and holds at least what its live
orders contribute (order ids that were added again leave their earlier
contribution behind). -/
def LevelsSound (b : OrderBook) : Prop :=
  AllPositive b ∧ ∀ s p, (s = 'B' ∨ s = 'A') →
    (b.levelAt s p = none → b.liveCount s p = 0) ∧
    (∀ l, b.levelAt s p = some l →
      0 < l.size ∧ 0 < l.count ∧ b.liveCount s p ≤ l.count ∧
      l.count - b.liveCount s p ≤ l.size - b.liveSize s p ∧
      (l.count = b.liveCount s p → l.size = b.liveSize s p))

/-- Invariant of books built with fresh order ids and sizes `> 0`: every level
holds exactly the size and count of its live orders. -/
def LevelsExact (b : OrderBook) : Prop :=
  AllPositive b ∧ ∀ s p, (s = 'B' ∨ s = 'A') →
    (b.levelAt s p = none → b.liveCount s p = 0) ∧
    (∀ l, b.levelAt s p = some l →
      l.size = b.liveSize s p ∧ l.count = b.liveCount s p ∧ 0 < l.size)

end OrderBook

/-- The size an order contributes to the level at `price` on `side`. -/
def Order.sizeAt (o : Order) (side : Char) (price : Price) : Int :=
  if o.side = side ∧ o.price = price then o.size else 0

/-- The count an order contributes to the level at `price` on `side`. -/
def Order.countAt (o : Order) (side : Char) (price : Price) : Int :=
  if o.side = side ∧ o.price = price then 1 else 0

/-- One call of a mutating method of `OrderBook`. -/
inductive BookCall where
  | add (order_id : Int) (side : Char) (price : Price) (size : Int)
  | cancel (order_id : Int)
  | modify (order_id : Int) (new_price : Price) (new_size : Int)
  | clear
deriving DecidableEq, Repr

namespace BookCall

/-- The effect of one call on the book. -/
def apply (b : OrderBook) : BookCall → OrderBook
  | add order_id side price size => b.addOrder order_id side price size
  | cancel order_id => b.cancelOrder order_id
  | modify order_id new_price new_size => b.modifyOrder order_id new_price new_size
  | clear => b.clear

/-- The effect of a sequence of calls, first call first. -/
def run (b : OrderBook) (calls : List BookCall) : OrderBook :=
  calls.foldl apply b

/-- Every `addOrder` of the call carries a size `> 0`. -/
def PositiveSize : BookCall → Prop
  | add _ _ _ size => 0 < size
  | _ => True

instance : DecidablePred PositiveSize
  | add _ _ _ size => inferInstanceAs (Decidable (0 < size))
  | cancel _ => isTrue trivial
  | modify _ _ _ => isTrue trivial
  | clear => isTrue trivial

/-- A sequence of `addOrder` and `cancelOrder` calls only, run from book `b`,
in which every `addOrder` uses an order id that is not live at that moment
and a size `> 0`. -/
def FreshAdds (b : OrderBook) : List BookCall → Prop
  | [] => True
  | add order_id side price size :: rest =>
    b.orders.find order_id = none ∧ 0 < size ∧
      FreshAdds (b.addOrder order_id side price size) rest
  | cancel order_id :: rest => FreshAdds (b.cancelOrder order_id) rest
  | _ :: _ => False

/-- The predicate `FreshAdds` can be evaluated. -/
def decideFreshAdds : (calls : List BookCall) → (b : OrderBook) → Decidable (FreshAdds b calls)
  | [], _ => isTrue trivial
  | add order_id side price size :: rest, b =>
    have := decideFreshAdds rest (b.addOrder order_id side price size)
    inferInstanceAs (Decidable (b.orders.find order_id = none ∧ 0 < size ∧
      FreshAdds (b.addOrder order_id side price size) rest))
  | cancel order_id :: rest, b => decideFreshAdds rest (b.cancelOrder order_id)
  | modify _ _ _ :: _, _ => isFalse (fun h => h)
  | clear :: _, _ => isFalse (fun h => h)

instance (b : OrderBook) (calls : List BookCall) : Decidable (FreshAdds b calls) :=
  decideFreshAdds calls b

/-- No `addOrder` of the sequence, run from book `b`, raises the aggregate
size of its price level above the largest value of the 32-bit `int`: the
statement `bids[price].size += size` (or the one on asks) does not overflow. -/
def Fits (b : OrderBook) : List BookCall → Prop
  | [] => True
  | add order_id side price size :: rest =>
    b.levelSize side price + size ≤ intMax ∧ Fits (b.addOrder order_id side price size) rest
  | cancel order_id :: rest => Fits (b.cancelOrder order_id) rest
  | modify order_id new_price new_size :: rest =>
    Fits (b.modifyOrder order_id new_price new_size) rest
  | clear :: rest => Fits b.clear rest

/-- The predicate `Fits` can be evaluated. -/
def decideFits : (calls : List BookCall) → (b : OrderBook) → Decidable (Fits b calls)
  | [], _ => isTrue trivial
  | add order_id side price size :: rest, b =>
    have := decideFits rest (b.addOrder order_id side price size)
    inferInstanceAs (Decidable (b.levelSize side price + size ≤ intMax ∧
      Fits (b.addOrder order_id side price size) rest))
  | cancel order_id :: rest, b => decideFits rest (b.cancelOrder order_id)
  | modify order_id new_price new_size :: rest, b =>
    decideFits rest (b.modifyOrder order_id new_price new_size)
  | clear :: rest, b => decideFits rest b.clear

instance (b : OrderBook) (calls : List BookCall) : Decidable (Fits b calls) :=
  decideFits calls b

end BookCall

namespace OrderBook

/-- The number of levels on `side` whose price is strictly better than
`price` (higher for bids, lower for asks): the 0-based rank that a level at
`price` has on that side. -/
def betterLevels (b : OrderBook) (side : Char) (price : Price) : Nat :=
  if side = 'B' then (b.bids.entries.filter (fun e => e.2.price > price)).length
  else if side = 'A' then (b.asks.entries.filter (fun e => e.2.price < price)).length
  else 0

end OrderBook

/-- The rows written to the output while `record` is processed in state `r`. -/
def OrderBookReconstructor.emitted (r : OrderBookReconstructor) (record : MBORecord) :
    List Row :=
  (r.processRecord record).output.drop r.output.length

/-- The row that `writeMBPRecord` appends to the output in state `r`. -/
def OrderBookReconstructor.writtenRow (r : OrderBookReconstructor) (record : MBORecord)
    (effective_action effective_side : Char) (depth : Int) : Row :=
  { index := r.row_index
    ts_recv := record.ts_event
    ts_event := record.ts_event
    rtype := 10
    publisher_id := record.publisher_id
    instrument_id := record.instrument_id
    action := effective_action
    side := effective_side
    depth := depth
    price := OrderBookReconstructor.priceColumn record.price
    size := record.size
    flags := record.flags
    ts_in_delta := record.ts_in_delta
    sequence := record.sequence
    levels := (List.range 10).map (fun i =>
      (OrderBookReconstructor.levelColumns (r.orderbook.getBids 10) i,
        OrderBookReconstructor.levelColumns (r.orderbook.getAsks 10) i))
    symbol := record.symbol
    order_id := record.order_id }

/-- The events that are not dropped: Clear (`'R'`), Add (`'A'`), Modify
(`'M'`) and Cancel (`'C'`). -/
def MBORecord.NotDropped (e : MBORecord) : Prop :=
  e.action = 'R' ∨ e.action = 'A' ∨ e.action = 'M' ∨ e.action = 'C'

instance (e : MBORecord) : Decidable e.NotDropped :=
  inferInstanceAs (Decidable (e.action = 'R' ∨ e.action = 'A' ∨ e.action = 'M' ∨ e.action = 'C'))

/-- The Trade events that record a pending trade: action `'T'` with a side
other than `'N'`. -/
def MBORecord.RecordsTrade (e : MBORecord) : Prop :=
  e.action = 'T' ∧ e.side ≠ 'N'

instance (e : MBORecord) : Decidable e.RecordsTrade :=
  inferInstanceAs (Decidable (e.action = 'T' ∧ e.side ≠ 'N'))

/-- The number of Cancel events of a stream that match a pending trade at
the moment they are processed, the stream being processed from state `r`. -/
def OrderBookReconstructor.matchCount :
    OrderBookReconstructor → List MBORecord → Nat
  | _, [] => 0
  | r, e :: rest =>
    (if e.action = 'C' ∧
        (r.pending_trades.find? (fun t => decide (t.sequence = e.sequence))).isSome = true
      then 1 else 0) + matchCount (r.processRecord e) rest

/-- Every `addOrder` of the call has side `'B'` or `'A'`. -/
def BookCall.KnownSide : BookCall → Prop
  | BookCall.add _ side _ _ => side = 'B' ∨ side = 'A'
  | _ => True

instance : DecidablePred BookCall.KnownSide
  | BookCall.add _ side _ _ => inferInstanceAs (Decidable (side = 'B' ∨ side = 'A'))
  | BookCall.cancel _ => isTrue trivial
  | BookCall.modify _ _ _ => isTrue trivial
  | BookCall.clear => isTrue trivial

/-- Every live order has side `'B'` or `'A'`. -/
def OrderBook.AllKnownSides (b : OrderBook) : Prop :=
  ∀ e ∈ b.orders.entries, e.2.side = 'B' ∨ e.2.side = 'A'

/-- A sample input record with the pass-through fields of the rows used in
`test_suite.cpp`. -/
def sampleRecord (action side : Char) (price : Price) (size order_id sequence : Int) :
    MBORecord :=
  ⟨"2025-07-17T08:05:03.360842448Z", "2025-07-17T08:05:03.360677248Z", 160, 2, 1108,
    action, side, price, size, 0, order_id, 130, 165200, sequence, "ARL"⟩

/-! ## Snapshot queries -/

namespace OrderBook

theorem collectLevels_eq_take (depth : Int) (l : List (Price × OrderBookLevel)) (i : Int) :
    collectLevels depth i l = (l.take (depth - i).toNat).map (fun e => e.2) := by
  induction l generalizing i with
  | nil => simp [collectLevels]
  | cons e rest ih =>
    unfold collectLevels
    by_cases h : i < depth
    · have hn : (depth - i).toNat = (depth - (i + 1)).toNat + 1 := by omega
      simp only [h, if_true, hn, List.take_succ_cons, List.map_cons, ih]
    · have hn : (depth - i).toNat = 0 := by omega
      simp [h, hn]

theorem getBids_eq_take (b : OrderBook) (depth : Int) :
    b.getBids depth = (b.bids.entries.take depth.toNat).map (fun e => e.2) := by
  unfold getBids
  rw [collectLevels_eq_take]
  simp

theorem getAsks_eq_take (b : OrderBook) (depth : Int) :
    b.getAsks depth = (b.asks.entries.take depth.toNat).map (fun e => e.2) := by
  unfold getAsks
  rw [collectLevels_eq_take]
  simp

theorem prices_sorted_of_keyed {lt : Price → Price → Prop}
    (m : SortedMap Price OrderBookLevel lt) (hk : Keyed m) (n : Nat) :
    (((m.entries.take n).map (fun e => e.2)).map (fun l => l.price)).Pairwise lt := by
  have h1 : (m.entries.take n).Pairwise (fun a b => lt a.1 b.1) :=
    m.sorted.sublist (List.take_sublist n m.entries)
  rw [List.map_map, List.pairwise_map]
  refine h1.imp_of_mem ?_
  intro a c ha hc hlt
  have ka := hk a (List.mem_of_mem_take ha)
  have kc := hk c (List.mem_of_mem_take hc)
  simp only [Function.comp_apply, ka, kc]
  exact hlt

theorem mem_levels_of_keyed {lt : Price → Price → Prop}
    (m : SortedMap Price OrderBookLevel lt) (hk : Keyed m) (n : Nat) (l : OrderBookLevel)
    (hl : l ∈ (m.entries.take n).map (fun e => e.2)) : (l.price, l) ∈ m.entries := by
  rcases List.mem_map.1 hl with ⟨e, he, rfl⟩
  have hm := List.mem_of_mem_take he
  have := hk e hm
  rw [this]
  exact hm

end OrderBook

open OrderBook

/-- C6. For every book and every depth `n`, the prices of the levels
returned by `getBids n` are strictly decreasing from first to last and those
of `getAsks n` strictly increasing, so no price occurs twice on a side. -/
theorem getBids_getAsks_strictly_ordered (b : OrderBook) (n : Int) :
    ((b.getBids n).map (fun l => l.price)).Pairwise (fun p q => p > q) ∧
    ((b.getAsks n).map (fun l => l.price)).Pairwise (fun p q => p < q) ∧
    ((b.getBids n).map (fun l => l.price)).Nodup ∧
    ((b.getAsks n).map (fun l => l.price)).Nodup := by
  have hb := prices_sorted_of_keyed b.bids b.bids_keyed n.toNat
  have ha := prices_sorted_of_keyed b.asks b.asks_keyed n.toNat
  rw [getBids_eq_take, getAsks_eq_take]
  refine ⟨hb, ha, ?_, ?_⟩
  · exact hb.imp (fun h => ne_of_gt h)
  · exact ha.imp (fun h => ne_of_lt h)

/-- C9. For every book and every order id that is not in the order index,
`cancelOrder` returns the book unchanged: bids, asks and the index are the
same, and the call yields a book (no error path exists). -/
theorem cancelOrder_unknown_noop (b : OrderBook) (order_id : Int)
    (h : b.orders.find order_id = none) :
    b.cancelOrder order_id = b ∧
    (b.cancelOrder order_id).bids = b.bids ∧
    (b.cancelOrder order_id).asks = b.asks ∧
    (b.cancelOrder order_id).orders = b.orders := by
  have : b.cancelOrder order_id = b := by
    unfold cancelOrder
    rw [h]
  rw [this]
  exact ⟨rfl, rfl, rfl, rfl⟩

/-- Witness of C9: cancelling the unknown id 7 in a book holding order 1. -/
theorem cancelOrder_unknown_noop_witness :
    (OrderBook.empty.addOrder 1 'B' 10 100).orders.find 7 = none ∧
    (OrderBook.empty.addOrder 1 'B' 10 100).cancelOrder 7 =
      OrderBook.empty.addOrder 1 'B' 10 100 :=
  ⟨by decide,
    (cancelOrder_unknown_noop (OrderBook.empty.addOrder 1 'B' 10 100) 7 (by decide)).1⟩

/-- C10. For every book, after `clear` both `getBids 10` and `getAsks 10`
are empty and the order index is empty, so `cancelOrder` of any id is a
no-op; `clear` applied twice gives the same state as `clear` applied once. -/
theorem clear_resets (b : OrderBook) :
    b.clear.getBids 10 = [] ∧ b.clear.getAsks 10 = [] ∧
    b.clear.orders.entries = [] ∧
    (∀ order_id, b.clear.orders.find order_id = none) ∧
    (∀ order_id, b.clear.cancelOrder order_id = b.clear) ∧
    b.clear.clear = b.clear :=
  ⟨rfl, rfl, rfl, fun _ => rfl, fun _ => rfl, rfl⟩

/-- C2, evaluated on the code. In the book holding the single live order 1
(buy, price 10, size 100), `modifyOrder 1 11 50` leaves the empty book: the
order is not live afterwards, whereas `cancelOrder 1` followed by
`addOrder 1 'B' 11 50` leaves order 1 live at price 11 with size 50. -/
theorem modifyOrder_loses_live_order :
    (OrderBook.empty.addOrder 1 'B' 10 100).orders.find 1 = some ⟨1, 'B', 10, 100⟩ ∧
    (OrderBook.empty.addOrder 1 'B' 10 100).modifyOrder 1 11 50 = OrderBook.empty ∧
    ((OrderBook.empty.addOrder 1 'B' 10 100).modifyOrder 1 11 50).orders.find 1 = none ∧
    (((OrderBook.empty.addOrder 1 'B' 10 100).cancelOrder 1).addOrder 1 'B' 11 50).orders.find 1
      = some ⟨1, 'B', 11, 50⟩ ∧
    (OrderBook.empty.addOrder 1 'B' 10 100).modifyOrder 1 11 50 ≠
      ((OrderBook.empty.addOrder 1 'B' 10 100).cancelOrder 1).addOrder 1 'B' 11 50 := by
  decide

/-! ## Event processing -/

namespace OrderBookReconstructor

theorem processRecord_fill (r : OrderBookReconstructor) (record : MBORecord)
    (h : record.action = 'F') : processRecord r record = r := by
  unfold processRecord
  simp [h]

theorem processAll_filter_fill (r : OrderBookReconstructor) (records : List MBORecord) :
    processAll r (records.filter (fun e => decide (e.action ≠ 'F'))) = processAll r records := by
  induction records generalizing r with
  | nil => rfl
  | cons e rest ih =>
    by_cases h : e.action = 'F'
    · have hf : (e :: rest).filter (fun e => decide (e.action ≠ 'F'))
          = rest.filter (fun e => decide (e.action ≠ 'F')) := by
        simp [List.filter_cons, h]
      rw [hf, ih]
      simp [processAll, List.foldl_cons, processRecord_fill r e h]
    · have hf : (e :: rest).filter (fun e => decide (e.action ≠ 'F'))
          = e :: rest.filter (fun e => decide (e.action ≠ 'F')) := by
        simp [List.filter_cons, h]
      rw [hf]
      simp only [processAll, List.foldl_cons]
      exact ih (processRecord r e)

theorem writeMBPRecord_pending (r : OrderBookReconstructor) (record : MBORecord)
    (a s : Char) (d : Int) : (writeMBPRecord r record a s d).pending_trades = r.pending_trades :=
  rfl

theorem writeMBPRecord_orderbook (r : OrderBookReconstructor) (record : MBORecord)
    (a s : Char) (d : Int) : (writeMBPRecord r record a s d).orderbook = r.orderbook :=
  rfl

/-- The pending-trade list after one record. -/
theorem processRecord_pending (r : OrderBookReconstructor) (e : MBORecord) :
    (processRecord r e).pending_trades =
      if e.action = 'T' ∧ e.side ≠ 'N' then r.pending_trades ++ [pendingOf e]
      else if e.action = 'C' then
        r.pending_trades.eraseP (fun t => decide (t.sequence = e.sequence))
      else r.pending_trades := by
  unfold processRecord
  by_cases hR : e.action = 'R'
  · simp [hR, writeMBPRecord_pending]
  by_cases hT : e.action = 'T'
  · by_cases hN : e.side = 'N'
    · simp [hT, hN]
    · simp [hT, hN]
  by_cases hF : e.action = 'F'
  · simp [hF]
  by_cases hC : e.action = 'C'
  · have hTN : ¬ (e.action = 'T' ∧ e.side ≠ 'N') := fun h => hT h.1
    simp only [if_neg hR, if_neg hT, if_neg hF, if_pos hC, if_neg hTN]
    split
    · rfl
    · rename_i hfind
      rw [writeMBPRecord_pending, List.eraseP_of_forall_not]
      intro t ht
      have := List.find?_eq_none.1 hfind t ht
      simpa using this
  by_cases hA : e.action = 'A'
  · simp [hA, writeMBPRecord_pending]
  by_cases hM : e.action = 'M'
  · simp [hM, writeMBPRecord_pending]
  simp [hR, hT, hF, hC, hA, hM]

theorem find?_eraseP_other (S s : Int) (hs : s ≠ S) (l : List PendingTrade) :
    (l.eraseP (fun t => decide (t.sequence = s))).find? (fun t => decide (t.sequence = S))
      = l.find? (fun t => decide (t.sequence = S)) := by
  induction l with
  | nil => rfl
  | cons t rest ih =>
    by_cases h1 : t.sequence = s
    · have h2 : ¬ t.sequence = S := fun h => hs (h1.symm.trans h)
      simp [List.eraseP_cons, h1, List.find?_cons, hs]
    · by_cases h2 : t.sequence = S
      · have h3 : ¬ S = s := fun h => hs h.symm
        simp [List.eraseP_cons, List.find?_cons, h2, h3]
      · simp [List.eraseP_cons, h1, List.find?_cons, h2, ih]

/-- A pending trade that is first for its sequence number stays first while
no Cancel with that sequence number is processed. -/
theorem first_pending_preserved (S : Int) (t : PendingTrade) (mid : List MBORecord)
    (hmid : ∀ e ∈ mid, ¬ (e.action = 'C' ∧ e.sequence = S)) (r : OrderBookReconstructor)
    (h : r.pending_trades.find? (fun t => decide (t.sequence = S)) = some t) :
    (processAll r mid).pending_trades.find? (fun t => decide (t.sequence = S)) = some t := by
  induction mid generalizing r with
  | nil => exact h
  | cons e rest ih =>
    simp only [processAll, List.foldl_cons]
    apply ih (fun e' he' => hmid e' (List.mem_cons_of_mem _ he'))
    rw [processRecord_pending]
    have he := hmid e (List.mem_cons_self _ _)
    by_cases hT : e.action = 'T' ∧ e.side ≠ 'N'
    · rw [if_pos hT, List.find?_append, h]
      rfl
    · rw [if_neg hT]
      by_cases hC : e.action = 'C'
      · rw [if_pos hC, find?_eraseP_other S e.sequence (fun hs => he ⟨hC, hs⟩), h]
      · rw [if_neg hC, h]

end OrderBookReconstructor

open OrderBookReconstructor

/-- C4. Fill transparency: two event streams with the same non-Fill events in
the same order (one is the other with events of action `'F'` inserted at any
positions, or with all of them removed) leave, from every engine state, the
same book, the same pending-trade list, the same emitted rows and the same
row index. -/
theorem fill_transparency (r : OrderBookReconstructor) (records records' : List MBORecord)
    (h : records'.filter (fun e => decide (e.action ≠ 'F'))
      = records.filter (fun e => decide (e.action ≠ 'F'))) :
    (processAll r records').orderbook = (processAll r records).orderbook ∧
    (processAll r records').pending_trades = (processAll r records).pending_trades ∧
    (processAll r records').output = (processAll r records).output ∧
    (processAll r records').row_index = (processAll r records).row_index ∧
    processAll r (records.filter (fun e => decide (e.action ≠ 'F'))) = processAll r records := by
  have : processAll r records' = processAll r records := by
    rw [← processAll_filter_fill r records', h, processAll_filter_fill]
  rw [this, processAll_filter_fill]
  exact ⟨rfl, rfl, rfl, rfl, rfl⟩

/-- Witness of C4: two Fill events around an Add change nothing. -/
theorem fill_transparency_witness :
    (processAll fresh [sampleRecord 'F' 'B' 10 100 1 5, sampleRecord 'A' 'B' 10 100 1 6,
        sampleRecord 'F' 'A' 11 20 2 7]).output
      = (processAll fresh [sampleRecord 'A' 'B' 10 100 1 6]).output :=
  (fill_transparency fresh [sampleRecord 'A' 'B' 10 100 1 6]
    [sampleRecord 'F' 'B' 10 100 1 5, sampleRecord 'A' 'B' 10 100 1 6,
      sampleRecord 'F' 'A' 11 20 2 7] (by decide)).2.2.1

namespace OrderBookReconstructor

/-- The Cancel branch of `processRecord` when the scan of `pending_trades`
stops at `t`. -/
theorem processRecord_trade_cancel (r : OrderBookReconstructor) (e : MBORecord)
    (t : PendingTrade) (hC : e.action = 'C')
    (hfind : r.pending_trades.find? (fun t => decide (t.sequence = e.sequence)) = some t) :
    processRecord r e =
      { orderbook := r.orderbook.cancelOrder e.order_id
        row_index := r.row_index + 1
        pending_trades := r.pending_trades.eraseP (fun t => decide (t.sequence = e.sequence))
        output := (writeMBPRecord
          { r with orderbook := r.orderbook.cancelOrder e.order_id }
          { e with action := 'T', side := t.actual_side, price := t.price, size := t.size }
          'T' t.actual_side
          (if t.actual_side = 'B' then
            scanDepth t.price 0 ((r.orderbook.cancelOrder e.order_id).getBids 10)
          else scanDepth t.price 0 ((r.orderbook.cancelOrder e.order_id).getAsks 10))).output } := by
  have hR : ¬ e.action = 'R' := by rw [hC]; decide
  have hT : ¬ e.action = 'T' := by rw [hC]; decide
  have hF : ¬ e.action = 'F' := by rw [hC]; decide
  unfold processRecord
  simp only [if_neg hR, if_neg hT, if_neg hF, if_pos hC, hfind]
  rfl

end OrderBookReconstructor

/-- C3. Trade reconciliation: from an engine state with no pending trade of
the Trade event's sequence number, process a Trade event whose side is not
`'N'`, then any events none of which is a Cancel with that sequence number,
then a Cancel event with that sequence number. Processing that Cancel applies
`cancelOrder` to the Cancel event's order id and appends exactly one row; its
action is `'T'`, its side is `'A'` when the Trade side is `'B'` and `'B'`
otherwise (in particular when it is `'A'`), and its price and size columns are
those of the Trade event (the price column is written for a price `> 0`). -/
theorem trade_reconciliation (r : OrderBookReconstructor) (trade cancel : MBORecord)
    (mid : List MBORecord)
    (hfree : ∀ t ∈ r.pending_trades, t.sequence ≠ trade.sequence)
    (hT : trade.action = 'T') (hside : trade.side ≠ 'N')
    (hmid : ∀ e ∈ mid, ¬ (e.action = 'C' ∧ e.sequence = trade.sequence))
    (hC : cancel.action = 'C') (hseq : cancel.sequence = trade.sequence) :
    (processRecord (processAll (processRecord r trade) mid) cancel).orderbook
      = (processAll (processRecord r trade) mid).orderbook.cancelOrder cancel.order_id ∧
    ∃ row : Row,
      (processRecord (processAll (processRecord r trade) mid) cancel).output
        = (processAll (processRecord r trade) mid).output ++ [row] ∧
      row.action = 'T' ∧
      row.side = (if trade.side = 'B' then 'A' else 'B') ∧
      (trade.side = 'B' → row.side = 'A') ∧ (trade.side = 'A' → row.side = 'B') ∧
      row.price = priceColumn trade.price ∧
      (0 < trade.price → row.price = some trade.price) ∧
      row.size = trade.size := by
  have h0 : (processRecord r trade).pending_trades.find?
      (fun t => decide (t.sequence = trade.sequence)) = some (pendingOf trade) := by
    rw [processRecord_pending, if_pos ⟨hT, hside⟩, List.find?_append]
    have : r.pending_trades.find? (fun t => decide (t.sequence = trade.sequence)) = none := by
      rw [List.find?_eq_none]
      intro t ht
      simpa using hfree t ht
    rw [this]
    simp [List.find?_cons, pendingOf]
  have h1 := first_pending_preserved trade.sequence (pendingOf trade) mid hmid
    (processRecord r trade) h0
  rw [← hseq] at h1
  rw [processRecord_trade_cancel _ cancel (pendingOf trade) hC h1]
  refine ⟨rfl, _, rfl, rfl, rfl, ?_, ?_, rfl, ?_, rfl⟩
  · intro hB
    simp [pendingOf, hB]
  · intro hA
    simp [pendingOf, hA]
  · intro hp
    simp [priceColumn, pendingOf, hp]

/-- Witness of C3: a resting sell order 2 at price 11, a Trade reported on
side `'B'` with sequence 7, a Fill, then the Cancel with sequence 7. -/
theorem trade_reconciliation_witness :
    (processRecord (processAll (processRecord
        (processAll fresh [sampleRecord 'A' 'A' 11 100 2 1]) (sampleRecord 'T' 'B' 11 100 0 7))
        [sampleRecord 'F' 'B' 11 100 2 7]) (sampleRecord 'C' 'A' 11 100 2 7)).orderbook
      = (processAll (processRecord
        (processAll fresh [sampleRecord 'A' 'A' 11 100 2 1]) (sampleRecord 'T' 'B' 11 100 0 7))
        [sampleRecord 'F' 'B' 11 100 2 7]).orderbook.cancelOrder 2 :=
  (trade_reconciliation (processAll fresh [sampleRecord 'A' 'A' 11 100 2 1])
    (sampleRecord 'T' 'B' 11 100 0 7) (sampleRecord 'C' 'A' 11 100 2 7)
    [sampleRecord 'F' 'B' 11 100 2 7] (by decide) (by decide) (by decide) (by decide)
    (by decide) (by decide)).1

/-! ## Effect of `addOrder` and `cancelOrder` on levels and index -/

section LevelLemmas

variable {lt : Price → Price → Prop} [DecidableRel lt] [IsTrichotomous Price lt]
  [IsTrans Price lt]

theorem find_addLevel (m : SortedMap Price OrderBookLevel lt) (price : Price) (size : Int)
    (p : Price) :
    (addLevel m price size).find p =
      if p = price then
        some ⟨price, wrapInt (((m.find price).getD default).size + size),
          wrapInt (((m.find price).getD default).count + 1)⟩
      else m.find p :=
  SortedMap.find_insert m price p _

theorem find_cancelLevel [IsIrrefl Price lt] (m : SortedMap Price OrderBookLevel lt)
    (price : Price) (size : Int) (p : Price) :
    (cancelLevel m price size).find p =
      if p = price then
        match m.find price with
        | none => none
        | some l =>
          if wrapInt (l.size - size) ≤ 0 then none
          else some ⟨l.price, wrapInt (l.size - size), wrapInt (l.count - 1)⟩
      else m.find p := by
  unfold cancelLevel
  cases hf : m.find price with
  | none =>
    by_cases hp : p = price
    · simp [hp, hf]
    · simp [hp]
  | some l =>
    by_cases hle : wrapInt (l.size - size) ≤ 0
    · simp only [hle, if_true]
      rw [SortedMap.find_erase]
    · simp only [hle, if_false]
      rw [SortedMap.find_insert]

end LevelLemmas

namespace OrderBook

theorem orders_addOrder (b : OrderBook) (order_id : Int) (side : Char) (price : Price)
    (size : Int) :
    (b.addOrder order_id side price size).orders
      = b.orders.insert order_id ⟨order_id, side, price, size⟩ := by
  unfold addOrder
  split
  · rfl
  · split <;> rfl

theorem levelAt_addOrder (b : OrderBook) (order_id : Int) (side : Char) (price : Price)
    (size : Int) (s : Char) (p : Price) :
    (b.addOrder order_id side price size).levelAt s p =
      if (s = 'B' ∨ s = 'A') ∧ s = side ∧ p = price then
        some ⟨price, wrapInt (b.levelSize side price + size),
          wrapInt (b.levelCount side price + 1)⟩
      else b.levelAt s p := by
  have hBA : ¬ ('B' = 'A') := by decide
  have hAB : ¬ ('A' = 'B') := by decide
  unfold addOrder levelSize levelCount levelAt
  by_cases h1 : side = 'B'
  · subst h1
    by_cases h2 : s = 'B'
    · subst h2
      simp only [if_true, find_addLevel, true_or, true_and]
      by_cases hp : p = price
      · simp only [hp, if_true]
        cases b.bids.find price <;> rfl
      · simp only [hp, if_false]
    · have h2' : ¬ ('B' = s) := fun h => h2 h.symm
      by_cases h3 : s = 'A'
      · subst h3
        simp [hAB]
      · simp [h2, h3]
  · by_cases h1' : side = 'A'
    · subst h1'
      by_cases h2 : s = 'B'
      · subst h2
        simp [hBA, hAB]
      · by_cases h3 : s = 'A'
        · subst h3
          simp only [hAB, if_false, if_true, find_addLevel, or_true, true_and]
          by_cases hp : p = price
          · simp only [hp, if_true]
            cases b.asks.find price <;> rfl
          · simp only [hp, if_false]
        · simp [h2, h3]
    · simp only [h1, h1', if_false]
      by_cases h2 : s = 'B'
      · have : ¬ s = side := fun h => h1 (h.symm.trans h2)
        simp [this]
      · by_cases h3 : s = 'A'
        · have : ¬ s = side := fun h => h1' (h.symm.trans h3)
          simp [this]
        · simp [h2, h3]

theorem orders_cancelOrder (b : OrderBook) (order_id : Int) (o : Order)
    (h : b.orders.find order_id = some o) :
    (b.cancelOrder order_id).orders = b.orders.erase order_id := by
  unfold cancelOrder
  rw [h]
  simp only
  split
  · rfl
  · split <;> rfl

theorem levelAt_cancelOrder (b : OrderBook) (order_id : Int) (o : Order)
    (h : b.orders.find order_id = some o) (s : Char) (p : Price) :
    (b.cancelOrder order_id).levelAt s p =
      if s = o.side ∧ p = o.price then
        match b.levelAt s p with
        | none => none
        | some l =>
          if wrapInt (l.size - o.size) ≤ 0 then none
          else some ⟨l.price, wrapInt (l.size - o.size), wrapInt (l.count - 1)⟩
      else b.levelAt s p := by
  have hBA : ¬ ('B' = 'A') := by decide
  have hAB : ¬ ('A' = 'B') := by decide
  unfold cancelOrder
  rw [h]
  simp only
  unfold levelAt
  by_cases h1 : o.side = 'B'
  · simp only [h1, if_true]
    by_cases h2 : s = 'B'
    · subst h2
      simp only [if_true, find_cancelLevel, true_and]
      by_cases hp : p = o.price
      · simp only [hp, if_true]
      · simp only [hp, if_false]
    · by_cases h3 : s = 'A'
      · subst h3
        simp [hAB]
      · simp [h2, h3]
  · by_cases h1' : o.side = 'A'
    · simp only [h1', hAB, if_false, if_true]
      by_cases h2 : s = 'B'
      · subst h2
        simp [hBA]
      · by_cases h3 : s = 'A'
        · subst h3
          simp only [hAB, if_false, if_true, find_cancelLevel, true_and]
          by_cases hp : p = o.price
          · simp only [hp, if_true]
          · simp only [hp, if_false]
        · simp [h2, h3]
    · simp only [h1, h1', if_false]
      by_cases h2 : s = 'B'
      · have : ¬ s = o.side := fun h => h1 (h.symm.trans h2)
        simp [this]
      · by_cases h3 : s = 'A'
        · have : ¬ s = o.side := fun h => h1' (h.symm.trans h3)
          simp [this]
        · simp [h2, h3]

theorem mem_of_levelAt (b : OrderBook) (s : Char) (p : Price) (l : OrderBookLevel)
    (h : b.levelAt s p = some l) :
    (s = 'B' ∧ (p, l) ∈ b.bids.entries) ∨ (s = 'A' ∧ (p, l) ∈ b.asks.entries) := by
  unfold levelAt at h
  by_cases hB : s = 'B'
  · rw [if_pos hB] at h
    exact Or.inl ⟨hB, b.bids.mem_of_find p l h⟩
  · rw [if_neg hB] at h
    by_cases hA : s = 'A'
    · rw [if_pos hA] at h
      exact Or.inr ⟨hA, b.asks.mem_of_find p l h⟩
    · rw [if_neg hA] at h
      cases h

theorem levelAt_bids (b : OrderBook) (p : Price) : b.levelAt 'B' p = b.bids.find p := by
  unfold levelAt
  rw [if_pos rfl]

theorem levelAt_asks (b : OrderBook) (p : Price) : b.levelAt 'A' p = b.asks.find p := by
  have hAB : ¬ ('A' = 'B') := by decide
  unfold levelAt
  rw [if_neg hAB, if_pos rfl]

theorem range_of_levelAt (b : OrderBook) (s : Char) (p : Price) (l : OrderBookLevel)
    (h : b.levelAt s p = some l) :
    intMin ≤ l.size ∧ l.size ≤ intMax ∧ intMin ≤ l.count ∧ l.count ≤ intMax := by
  rcases mem_of_levelAt b s p l h with ⟨_, hm⟩ | ⟨_, hm⟩
  · exact b.bids_range _ hm
  · exact b.asks_range _ hm

theorem levelSize_range (b : OrderBook) (s : Char) (p : Price) :
    intMin ≤ b.levelSize s p ∧ b.levelSize s p ≤ intMax := by
  unfold levelSize
  cases h : b.levelAt s p with
  | none => exact ⟨by decide, by decide⟩
  | some l => exact ⟨(range_of_levelAt b s p l h).1, (range_of_levelAt b s p l h).2.1⟩

theorem levelCount_range (b : OrderBook) (s : Char) (p : Price) :
    intMin ≤ b.levelCount s p ∧ b.levelCount s p ≤ intMax := by
  unfold levelCount
  cases h : b.levelAt s p with
  | none => exact ⟨by decide, by decide⟩
  | some l => exact ⟨(range_of_levelAt b s p l h).2.2.1, (range_of_levelAt b s p l h).2.2.2⟩

end OrderBook

/-- C7, as the code has it. For every book and every order id, side `'B'` or
`'A'`, price and size, `addOrder` records the order in the index and changes
the levels only at that price on that side: provided the previous size (0 if
the level was absent) plus `size` and the previous count (0 if absent) plus 1
lie within the range of the 32-bit `int`, the level gets exactly these two
sums as its size and count (in general it gets the values to which the `int`
arithmetic wraps them); every other level of that side, every level of the
opposite side and every other order of the index is unchanged. -/
theorem addOrder_effect (b : OrderBook) (order_id : Int) (side : Char) (price : Price)
    (size : Int) (hside : side = 'B' ∨ side = 'A') :
    (b.addOrder order_id side price size).orders.find order_id
      = some ⟨order_id, side, price, size⟩ ∧
    (∀ id, id ≠ order_id →
      (b.addOrder order_id side price size).orders.find id = b.orders.find id) ∧
    (intMin ≤ b.levelSize side price + size → b.levelSize side price + size ≤ intMax →
      b.levelCount side price + 1 ≤ intMax →
      (b.addOrder order_id side price size).levelAt side price
        = some ⟨price, b.levelSize side price + size, b.levelCount side price + 1⟩) ∧
    (b.addOrder order_id side price size).levelAt side price
      = some ⟨price, wrapInt (b.levelSize side price + size),
          wrapInt (b.levelCount side price + 1)⟩ ∧
    (∀ p, p ≠ price → (b.addOrder order_id side price size).levelAt side p = b.levelAt side p) ∧
    (∀ s p, s ≠ side → (b.addOrder order_id side price size).levelAt s p = b.levelAt s p) ∧
    (side = 'B' → (b.addOrder order_id side price size).asks = b.asks) ∧
    (side = 'A' → (b.addOrder order_id side price size).bids = b.bids) := by
  refine ⟨?_, ?_, ?_, ?_, ?_, ?_, ?_, ?_⟩
  · rw [orders_addOrder, SortedMap.find_insert, if_pos rfl]
  · intro id hid
    rw [orders_addOrder, SortedMap.find_insert, if_neg hid]
  · intro h1 h2 h3
    have h4 := (levelCount_range b side price).1
    rw [levelAt_addOrder, if_pos ⟨hside, rfl, rfl⟩, wrapInt_of_range _ h1 h2,
      wrapInt_of_range _ (by unfold intMin at *; omega) h3]
  · rw [levelAt_addOrder, if_pos ⟨hside, rfl, rfl⟩]
  · intro p hp
    rw [levelAt_addOrder, if_neg (fun h => hp h.2.2)]
  · intro s p hs
    rw [levelAt_addOrder, if_neg (fun h => hs h.2.1)]
  · intro hB
    subst hB
    rfl
  · intro hA
    subst hA
    rfl

/-- Witness of the amended C7: a second buy order at the price of a resting
one. -/
theorem addOrder_effect_witness :
    ((OrderBook.empty.addOrder 1 'B' 10 100).addOrder 2 'B' 10 40).levelAt 'B' 10
      = some ⟨10, (OrderBook.empty.addOrder 1 'B' 10 100).levelSize 'B' 10 + 40,
          (OrderBook.empty.addOrder 1 'B' 10 100).levelCount 'B' 10 + 1⟩ :=
  (addOrder_effect (OrderBook.empty.addOrder 1 'B' 10 100) 2 'B' 10 40 (Or.inl rfl)).2.2.1
    (by decide) (by decide) (by decide)

/-- Counterexample to C7 as stated. In the book holding buy order 1 at price
10 with size 2147483647, `addOrder 2 'B' 10 1` leaves a level of size
-2147483648 at price 10, not the previous size plus 1. -/
theorem addOrder_size_wraps :
    (OrderBook.empty.addOrder 1 'B' 10 2147483647).levelSize 'B' 10 = 2147483647 ∧
    ((OrderBook.empty.addOrder 1 'B' 10 2147483647).addOrder 2 'B' 10 1).levelAt 'B' 10
      = some ⟨10, -2147483648, 2⟩ ∧
    ((OrderBook.empty.addOrder 1 'B' 10 2147483647).addOrder 2 'B' 10 1).levelAt 'B' 10
      ≠ some ⟨10, (OrderBook.empty.addOrder 1 'B' 10 2147483647).levelSize 'B' 10 + 1,
          (OrderBook.empty.addOrder 1 'B' 10 2147483647).levelCount 'B' 10 + 1⟩ := by
  decide

/-- C8, as the code has it. For every book and every order id live in the
index with side `s`, price `p` and size `q`, `cancelOrder` removes the order
from the index and, if a level exists at `p` on side `s`, provided its size
minus `q` and its count minus 1 lie within the range of the 32-bit `int`, it
lowers the level's size by `q` and its count by 1 and removes the level
exactly when the resulting size is `<= 0` (in general it does so with the
values to which the `int` arithmetic wraps them); every other level of either
side and every other order of the index is unchanged. -/
theorem cancelOrder_effect (b : OrderBook) (order_id : Int) (o : Order)
    (hlive : b.orders.find order_id = some o) :
    (b.cancelOrder order_id).orders.find order_id = none ∧
    (∀ id, id ≠ order_id → (b.cancelOrder order_id).orders.find id = b.orders.find id) ∧
    (∀ l, b.levelAt o.side o.price = some l →
      intMin ≤ l.size - o.size → l.size - o.size ≤ intMax → intMin ≤ l.count - 1 →
      (b.cancelOrder order_id).levelAt o.side o.price =
        if l.size - o.size ≤ 0 then none
        else some ⟨l.price, l.size - o.size, l.count - 1⟩) ∧
    (∀ l, b.levelAt o.side o.price = some l →
      (b.cancelOrder order_id).levelAt o.side o.price =
        if wrapInt (l.size - o.size) ≤ 0 then none
        else some ⟨l.price, wrapInt (l.size - o.size), wrapInt (l.count - 1)⟩) ∧
    (b.levelAt o.side o.price = none → (b.cancelOrder order_id).levelAt o.side o.price = none) ∧
    (∀ s p, s ≠ o.side ∨ p ≠ o.price →
      (b.cancelOrder order_id).levelAt s p = b.levelAt s p) := by
  refine ⟨?_, ?_, ?_, ?_, ?_, ?_⟩
  · rw [orders_cancelOrder b order_id o hlive, SortedMap.find_erase, if_pos rfl]
  · intro id hid
    rw [orders_cancelOrder b order_id o hlive, SortedMap.find_erase, if_neg hid]
  · intro l hl h1 h2 h3
    have h4 := (range_of_levelAt b o.side o.price l hl).2.2.2
    rw [levelAt_cancelOrder b order_id o hlive, if_pos ⟨rfl, rfl⟩, hl]
    simp only
    rw [wrapInt_of_range _ h1 h2, wrapInt_of_range _ h3 (by unfold intMax at *; omega)]
  · intro l hl
    rw [levelAt_cancelOrder b order_id o hlive, if_pos ⟨rfl, rfl⟩, hl]
  · intro hl
    rw [levelAt_cancelOrder b order_id o hlive, if_pos ⟨rfl, rfl⟩, hl]
  · intro s p hsp
    rw [levelAt_cancelOrder b order_id o hlive, if_neg]
    intro h
    rcases hsp with hs | hp
    · exact hs h.1
    · exact hp h.2

/-- Witness of the amended C8: cancelling one of two buy orders resting at
price 10. -/
theorem cancelOrder_effect_witness :
    (((OrderBook.empty.addOrder 1 'B' 10 100).addOrder 2 'B' 10 40).cancelOrder 1).levelAt 'B' 10
      = (if (140 : Int) - 100 ≤ 0 then none else some ⟨10, 140 - 100, 2 - 1⟩) :=
  (cancelOrder_effect ((OrderBook.empty.addOrder 1 'B' 10 100).addOrder 2 'B' 10 40) 1
    ⟨1, 'B', 10, 100⟩ (by decide)).2.2.1 ⟨10, 140, 2⟩ (by decide) (by decide) (by decide)
    (by decide)

/-- Counterexample to C8 as stated. After buy orders 1 (size 2147483647) and 2
(size 1) were added at price 10, the level there has size -2147483648 and
order 2 is live with size 1; `cancelOrder 2` leaves the level in place with
size 2147483647, although its size minus 1 is `<= 0`. -/
theorem cancelOrder_size_wraps :
    ((OrderBook.empty.addOrder 1 'B' 10 2147483647).addOrder 2 'B' 10 1).orders.find 2
      = some ⟨2, 'B', 10, 1⟩ ∧
    ((OrderBook.empty.addOrder 1 'B' 10 2147483647).addOrder 2 'B' 10 1).levelAt 'B' 10
      = some ⟨10, -2147483648, 2⟩ ∧
    (-2147483648 : Int) - 1 ≤ 0 ∧
    (((OrderBook.empty.addOrder 1 'B' 10 2147483647).addOrder 2 'B' 10 1).cancelOrder 2).levelAt
      'B' 10 = some ⟨10, 2147483647, 1⟩ := by
  decide

/-! ## Sums over the order index -/

section Sums

variable {K V : Type}

theorem sum_eraseEntry [DecidableEq K] (g : V → Int) (k : K) (l : List (K × V)) :
    ((eraseEntry k l).map (fun e => g e.2)).sum
      = (l.map (fun e => g e.2)).sum - ((findEntry k l).map g).getD 0 := by
  induction l with
  | nil => simp [eraseEntry, findEntry]
  | cons e rest ih =>
    unfold eraseEntry findEntry
    by_cases h : e.1 = k
    · simp only [h, if_true, List.map_cons, List.sum_cons, Option.map_some', Option.getD_some]
      omega
    · simp only [h, if_false, List.map_cons, List.sum_cons, ih]
      omega

theorem sum_insertEntry (lt : K → K → Prop) [DecidableRel lt] [DecidableEq K]
    [IsIrrefl K lt] [IsTrans K lt] (g : V → Int) (k : K) (v : V) (l : List (K × V))
    (hl : l.Pairwise (fun a b => lt a.1 b.1)) :
    ((insertEntry lt k v l).map (fun e => g e.2)).sum
      = (l.map (fun e => g e.2)).sum - ((findEntry k l).map g).getD 0
        + g v := by
  induction l with
  | nil => simp [insertEntry, findEntry]
  | cons e rest ih =>
    rw [List.pairwise_cons] at hl
    unfold insertEntry
    by_cases h : e.1 = k
    · simp only [h, if_true, List.map_cons, List.sum_cons, findEntry, Option.map_some',
        Option.getD_some]
      omega
    · by_cases h2 : lt k e.1
      · have hnone : findEntry k (e :: rest) = none := by
          apply findEntry_eq_none
          intro x hx hxk
          rcases List.mem_cons.1 hx with hx | hx
          · exact h (hx ▸ hxk)
          · have := IsTrans.trans _ _ _ h2 (hl.1 x hx)
            rw [hxk] at this
            exact irrefl_of lt k this
        simp only [h, h2, if_false, if_true, List.map_cons, List.sum_cons, hnone,
          Option.map_none', Option.getD_none]
        omega
      · simp only [h, h2, if_false, List.map_cons, List.sum_cons, ih hl.2, findEntry]
        omega

theorem sum_filter_map (P : V → Prop) [DecidablePred P] (f : V → Int) (l : List (K × V)) :
    (((l.map (fun e => e.2)).filter (fun o => decide (P o))).map f).sum
      = (l.map (fun e => if P e.2 then f e.2 else 0)).sum := by
  induction l with
  | nil => rfl
  | cons e rest ih =>
    by_cases h : P e.2
    · simp [List.filter_cons, h, ih]
    · simp [List.filter_cons, h, ih]

theorem length_filter_map (P : V → Prop) [DecidablePred P] (l : List (K × V)) :
    ((((l.map (fun e => e.2)).filter (fun o => decide (P o))).length : Nat) : Int)
      = (l.map (fun e => if P e.2 then (1 : Int) else 0)).sum := by
  induction l with
  | nil => rfl
  | cons e rest ih =>
    by_cases h : P e.2
    · simp [List.filter_cons, h, ← ih]
      omega
    · simp [List.filter_cons, h, ← ih]

end Sums

namespace OrderBook

theorem liveSize_eq_sum (b : OrderBook) (s : Char) (p : Price) :
    b.liveSize s p = (b.orders.entries.map (fun e => e.2.sizeAt s p)).sum := by
  unfold liveSize liveOrders Order.sizeAt
  exact sum_filter_map (fun o : Order => o.side = s ∧ o.price = p) (fun o => o.size) _

theorem liveCount_eq_sum (b : OrderBook) (s : Char) (p : Price) :
    b.liveCount s p = (b.orders.entries.map (fun e => e.2.countAt s p)).sum := by
  unfold liveCount liveOrders Order.countAt
  exact length_filter_map (fun o : Order => o.side = s ∧ o.price = p) _

theorem liveSize_addOrder (b : OrderBook) (order_id : Int) (side : Char) (price : Price)
    (size : Int) (s : Char) (p : Price) :
    (b.addOrder order_id side price size).liveSize s p
      = b.liveSize s p
        - ((b.orders.find order_id).map (fun o => o.sizeAt s p)).getD 0
        + (Order.mk order_id side price size).sizeAt s p := by
  rw [liveSize_eq_sum, liveSize_eq_sum, orders_addOrder]
  exact sum_insertEntry (fun a c : Int => a < c) (fun o : Order => o.sizeAt s p) order_id
    (Order.mk order_id side price size) b.orders.entries b.orders.sorted

theorem liveCount_addOrder (b : OrderBook) (order_id : Int) (side : Char) (price : Price)
    (size : Int) (s : Char) (p : Price) :
    (b.addOrder order_id side price size).liveCount s p
      = b.liveCount s p
        - ((b.orders.find order_id).map (fun o => o.countAt s p)).getD 0
        + (Order.mk order_id side price size).countAt s p := by
  rw [liveCount_eq_sum, liveCount_eq_sum, orders_addOrder]
  exact sum_insertEntry (fun a c : Int => a < c) (fun o : Order => o.countAt s p) order_id
    (Order.mk order_id side price size) b.orders.entries b.orders.sorted

theorem liveSize_cancelOrder (b : OrderBook) (order_id : Int) (o : Order)
    (h : b.orders.find order_id = some o) (s : Char) (p : Price) :
    (b.cancelOrder order_id).liveSize s p = b.liveSize s p - o.sizeAt s p := by
  rw [liveSize_eq_sum, liveSize_eq_sum, orders_cancelOrder b order_id o h]
  have := sum_eraseEntry (fun o : Order => o.sizeAt s p) order_id b.orders.entries
  have h' : findEntry order_id b.orders.entries = some o := h
  rw [h'] at this
  exact this

theorem liveCount_cancelOrder (b : OrderBook) (order_id : Int) (o : Order)
    (h : b.orders.find order_id = some o) (s : Char) (p : Price) :
    (b.cancelOrder order_id).liveCount s p = b.liveCount s p - o.countAt s p := by
  rw [liveCount_eq_sum, liveCount_eq_sum, orders_cancelOrder b order_id o h]
  have := sum_eraseEntry (fun o : Order => o.countAt s p) order_id b.orders.entries
  have h' : findEntry order_id b.orders.entries = some o := h
  rw [h'] at this
  exact this

theorem liveCount_nonneg (b : OrderBook) (s : Char) (p : Price) : 0 ≤ b.liveCount s p := by
  unfold liveCount
  omega

theorem liveSize_of_liveCount_zero (b : OrderBook) (s : Char) (p : Price)
    (h : b.liveCount s p = 0) : b.liveSize s p = 0 := by
  unfold liveCount at h
  unfold liveSize
  have : b.liveOrders s p = [] := List.length_eq_zero.1 (by omega)
  rw [this]
  rfl

theorem liveCount_le_liveSize (b : OrderBook) (hpos : AllPositive b) (s : Char) (p : Price) :
    b.liveCount s p ≤ b.liveSize s p := by
  rw [liveSize_eq_sum, liveCount_eq_sum]
  have : ∀ l : List (Int × Order), (∀ e ∈ l, 0 < e.2.size) →
      (l.map (fun e => e.2.countAt s p)).sum ≤ (l.map (fun e => e.2.sizeAt s p)).sum := by
    intro l
    induction l with
    | nil => intro _; simp
    | cons e rest ih =>
      intro h
      have h1 := h e (List.mem_cons_self _ _)
      have h2 := ih (fun x hx => h x (List.mem_cons_of_mem _ hx))
      have h3 : e.2.countAt s p ≤ e.2.sizeAt s p := by
        unfold Order.countAt Order.sizeAt
        split <;> omega
      simp only [List.map_cons, List.sum_cons]
      omega
  exact this _ hpos

theorem countAt_le_liveCount (b : OrderBook) (order_id : Int) (o : Order)
    (h : b.orders.find order_id = some o) (s : Char) (p : Price) :
    o.countAt s p ≤ b.liveCount s p := by
  have h1 := liveCount_cancelOrder b order_id o h s p
  have h2 := liveCount_nonneg (b.cancelOrder order_id) s p
  omega

theorem allPositive_addOrder (b : OrderBook) (order_id : Int) (side : Char) (price : Price)
    (size : Int) (hpos : AllPositive b) (hsize : 0 < size) :
    AllPositive (b.addOrder order_id side price size) := by
  intro e he
  rw [orders_addOrder] at he
  rcases mem_insertEntry _ _ _ _ e he with he | he
  · rw [he]; exact hsize
  · exact hpos e he

theorem allPositive_cancelOrder (b : OrderBook) (order_id : Int) (hpos : AllPositive b) :
    AllPositive (b.cancelOrder order_id) := by
  cases h : b.orders.find order_id with
  | none =>
    have : b.cancelOrder order_id = b := by unfold cancelOrder; rw [h]
    rw [this]; exact hpos
  | some o =>
    intro e he
    rw [orders_cancelOrder b order_id o h] at he
    exact hpos e (mem_eraseEntry _ _ e he)

theorem modifyOrder_eq (b : OrderBook) (order_id : Int) (new_price : Price) (new_size : Int) :
    b.modifyOrder order_id new_price new_size = b.cancelOrder order_id := by
  have hnone : (b.cancelOrder order_id).orders.find order_id = none := by
    cases h : b.orders.find order_id with
    | none =>
      have : b.cancelOrder order_id = b := by unfold cancelOrder; rw [h]
      rw [this]; exact h
    | some o =>
      rw [orders_cancelOrder b order_id o h, SortedMap.find_erase, if_pos rfl]
  unfold modifyOrder
  simp only [hnone]

end OrderBook

/-! ## Level invariants -/

namespace OrderBook

/-- What the order previously stored under `order_id` contributes at a level. -/
theorem old_contribution (b : OrderBook) (hpos : AllPositive b) (order_id : Int) (s : Char)
    (p : Price) :
    ∃ oc o1 : Int,
      ((b.orders.find order_id).map (fun o => o.sizeAt s p)).getD 0 = oc ∧
      ((b.orders.find order_id).map (fun o => o.countAt s p)).getD 0 = o1 ∧
      ((o1 = 0 ∧ oc = 0) ∨ (o1 = 1 ∧ 1 ≤ oc)) ∧ o1 ≤ b.liveCount s p ∧
      (b.orders.find order_id = none → o1 = 0) := by
  cases h : b.orders.find order_id with
  | none =>
    refine ⟨0, 0, rfl, rfl, Or.inl ⟨rfl, rfl⟩, liveCount_nonneg b s p, fun _ => rfl⟩
  | some o =>
    refine ⟨o.sizeAt s p, o.countAt s p, rfl, rfl, ?_, countAt_le_liveCount b order_id o h s p, ?_⟩
    · have hp : 0 < o.size := hpos (order_id, o) (b.orders.mem_of_find order_id o h)
      unfold Order.sizeAt Order.countAt
      by_cases hc : o.side = s ∧ o.price = p
      · rw [if_pos hc, if_pos hc]
        exact Or.inr ⟨rfl, by omega⟩
      · rw [if_neg hc, if_neg hc]
        exact Or.inl ⟨rfl, rfl⟩
    · intro hc
      cases hc

theorem new_contribution (order_id : Int) (side : Char) (price : Price) (size : Int)
    (s : Char) (p : Price) :
    (s = side ∧ p = price ∧ (Order.mk order_id side price size).sizeAt s p = size ∧
      (Order.mk order_id side price size).countAt s p = 1) ∨
    (¬ (s = side ∧ p = price) ∧ (Order.mk order_id side price size).sizeAt s p = 0 ∧
      (Order.mk order_id side price size).countAt s p = 0) := by
  unfold Order.sizeAt Order.countAt
  by_cases h : side = s ∧ price = p
  · left
    simp [h.1, h.2]
  · right
    have h' : ¬ (s = side ∧ p = price) := fun hh => h ⟨hh.1.symm, hh.2.symm⟩
    exact ⟨h', if_neg h, if_neg h⟩

theorem levelsSound_addOrder (b : OrderBook) (order_id : Int) (side : Char) (price : Price)
    (size : Int) (h : LevelsSound b) (hsize : 0 < size)
    (hfit : b.levelSize side price + size ≤ intMax) :
    LevelsSound (b.addOrder order_id side price size) := by
  have hpos' := allPositive_addOrder b order_id side price size h.1 hsize
  refine ⟨hpos', ?_⟩
  intro s p hsp
  obtain ⟨hn, hs⟩ := h.2 s p hsp
  have hlev := levelAt_addOrder b order_id side price size s p
  have hLS := liveSize_addOrder b order_id side price size s p
  have hLC := liveCount_addOrder b order_id side price size s p
  have g1 := liveCount_nonneg b s p
  have g2 := liveSize_of_liveCount_zero b s p
  have g3 := liveCount_le_liveSize b h.1 s p
  have g1' := liveCount_nonneg (b.addOrder order_id side price size) s p
  have g2' := liveSize_of_liveCount_zero (b.addOrder order_id side price size) s p
  have g3' := liveCount_le_liveSize (b.addOrder order_id side price size) hpos' s p
  obtain ⟨oc, o1, e1, e2, hcase, hle, _⟩ := old_contribution b h.1 order_id s p
  rw [e1] at hLS
  rw [e2] at hLC
  rcases new_contribution order_id side price size s p with ⟨hs1, hp1, n1, n2⟩ | ⟨hne, n1, n2⟩
  · rw [n1] at hLS
    rw [n2] at hLC
    rw [if_pos ⟨hsp, hs1, hp1⟩] at hlev
    subst hs1
    subst hp1
    rw [hlev]
    refine ⟨fun hh => Option.noConfusion hh, ?_⟩
    intro l hl
    cases hl
    simp only
    unfold levelSize at hfit
    unfold levelSize levelCount
    unfold intMax at hfit
    cases hlv : b.levelAt s p with
    | none =>
      have := hn hlv
      rw [hlv] at hfit
      simp only at hfit ⊢
      unfold wrapInt
      omega
    | some l0 =>
      obtain ⟨a1, a2, a3, a4, a5⟩ := hs l0 hlv
      rw [hlv] at hfit
      simp only at hfit ⊢
      unfold wrapInt
      omega
  · rw [n1] at hLS
    rw [n2] at hLC
    rw [if_neg (fun hh => hne hh.2)] at hlev
    rw [hlev]
    refine ⟨fun hh => ?_, ?_⟩
    · have := hn hh
      omega
    · intro l hl
      obtain ⟨a1, a2, a3, a4, a5⟩ := hs l hl
      omega

theorem levelsExact_addOrder (b : OrderBook) (order_id : Int) (side : Char) (price : Price)
    (size : Int) (h : LevelsExact b) (hsize : 0 < size)
    (hfresh : b.orders.find order_id = none)
    (hfit : b.levelSize side price + size ≤ intMax) :
    LevelsExact (b.addOrder order_id side price size) := by
  have hpos' := allPositive_addOrder b order_id side price size h.1 hsize
  refine ⟨hpos', ?_⟩
  intro s p hsp
  obtain ⟨hn, hs⟩ := h.2 s p hsp
  have hlev := levelAt_addOrder b order_id side price size s p
  have hLS := liveSize_addOrder b order_id side price size s p
  have hLC := liveCount_addOrder b order_id side price size s p
  have g1 := liveCount_nonneg b s p
  have g2 := liveSize_of_liveCount_zero b s p
  have g3 := liveCount_le_liveSize b h.1 s p
  obtain ⟨oc, o1, e1, e2, hcase, hle, hz⟩ := old_contribution b h.1 order_id s p
  have hz' := hz hfresh
  rw [e1] at hLS
  rw [e2] at hLC
  rcases new_contribution order_id side price size s p with ⟨hs1, hp1, n1, n2⟩ | ⟨hne, n1, n2⟩
  · rw [n1] at hLS
    rw [n2] at hLC
    rw [if_pos ⟨hsp, hs1, hp1⟩] at hlev
    subst hs1
    subst hp1
    rw [hlev]
    refine ⟨fun hh => Option.noConfusion hh, ?_⟩
    intro l hl
    cases hl
    simp only
    unfold levelSize at hfit
    unfold levelSize levelCount
    unfold intMax at hfit
    cases hlv : b.levelAt s p with
    | none =>
      have := hn hlv
      rw [hlv] at hfit
      simp only at hfit ⊢
      unfold wrapInt
      omega
    | some l0 =>
      obtain ⟨a1, a2, a3⟩ := hs l0 hlv
      rw [hlv] at hfit
      simp only at hfit ⊢
      unfold wrapInt
      omega
  · rw [n1] at hLS
    rw [n2] at hLC
    rw [if_neg (fun hh => hne hh.2)] at hlev
    rw [hlev]
    refine ⟨fun hh => ?_, ?_⟩
    · have := hn hh
      omega
    · intro l hl
      obtain ⟨a1, a2, a3⟩ := hs l hl
      omega

theorem cancelled_contribution (o : Order) (s : Char) (p : Price) :
    (s = o.side ∧ p = o.price ∧ o.sizeAt s p = o.size ∧ o.countAt s p = 1) ∨
    (¬ (s = o.side ∧ p = o.price) ∧ o.sizeAt s p = 0 ∧ o.countAt s p = 0) := by
  unfold Order.sizeAt Order.countAt
  by_cases h : o.side = s ∧ o.price = p
  · left
    exact ⟨h.1.symm, h.2.symm, if_pos h, if_pos h⟩
  · right
    have h' : ¬ (s = o.side ∧ p = o.price) := fun hh => h ⟨hh.1.symm, hh.2.symm⟩
    exact ⟨h', if_neg h, if_neg h⟩

theorem cancelOrder_of_not_live (b : OrderBook) (order_id : Int)
    (h : b.orders.find order_id = none) : b.cancelOrder order_id = b := by
  unfold cancelOrder
  rw [h]

theorem levelsSound_cancelOrder (b : OrderBook) (order_id : Int) (h : LevelsSound b) :
    LevelsSound (b.cancelOrder order_id) := by
  cases hfind : b.orders.find order_id with
  | none => rw [cancelOrder_of_not_live b order_id hfind]; exact h
  | some o =>
    have hpos' := allPositive_cancelOrder b order_id h.1
    refine ⟨hpos', ?_⟩
    intro s p hsp
    obtain ⟨hn, hs⟩ := h.2 s p hsp
    have hlev := levelAt_cancelOrder b order_id o hfind s p
    have hLS := liveSize_cancelOrder b order_id o hfind s p
    have hLC := liveCount_cancelOrder b order_id o hfind s p
    have hp : 0 < o.size := h.1 (order_id, o) (b.orders.mem_of_find order_id o hfind)
    have hle := countAt_le_liveCount b order_id o hfind s p
    have g1 := liveCount_nonneg b s p
    have g2 := liveSize_of_liveCount_zero b s p
    have g3 := liveCount_le_liveSize b h.1 s p
    have g1' := liveCount_nonneg (b.cancelOrder order_id) s p
    have g2' := liveSize_of_liveCount_zero (b.cancelOrder order_id) s p
    have g3' := liveCount_le_liveSize (b.cancelOrder order_id) hpos' s p
    rcases cancelled_contribution o s p with ⟨hs1, hp1, n1, n2⟩ | ⟨hne, n1, n2⟩
    · rw [n1] at hLS
      rw [n2] at hLC hle
      rw [if_pos ⟨hs1, hp1⟩] at hlev
      cases hlv : b.levelAt s p with
      | none =>
        have := hn hlv
        omega
      | some l =>
        obtain ⟨a1, a2, a3, a4, a5⟩ := hs l hlv
        have hr := range_of_levelAt b s p l hlv
        unfold intMin intMax at hr
        rw [hlv] at hlev
        simp only at hlev
        by_cases hz : wrapInt (l.size - o.size) ≤ 0
        · rw [if_pos hz] at hlev
          rw [hlev]
          unfold wrapInt at hz
          refine ⟨fun _ => by omega, fun l' hl' => Option.noConfusion hl'⟩
        · rw [if_neg hz] at hlev
          rw [hlev]
          unfold wrapInt at hz
          refine ⟨fun hh => Option.noConfusion hh, ?_⟩
          intro l' hl'
          cases hl'
          simp only
          unfold wrapInt
          omega
    · rw [n1] at hLS
      rw [n2] at hLC
      rw [if_neg (fun hh => hne hh)] at hlev
      rw [hlev]
      refine ⟨fun hh => ?_, ?_⟩
      · have := hn hh
        omega
      · intro l hl
        obtain ⟨a1, a2, a3, a4, a5⟩ := hs l hl
        omega

theorem levelsExact_cancelOrder (b : OrderBook) (order_id : Int) (h : LevelsExact b) :
    LevelsExact (b.cancelOrder order_id) := by
  cases hfind : b.orders.find order_id with
  | none => rw [cancelOrder_of_not_live b order_id hfind]; exact h
  | some o =>
    have hpos' := allPositive_cancelOrder b order_id h.1
    refine ⟨hpos', ?_⟩
    intro s p hsp
    obtain ⟨hn, hs⟩ := h.2 s p hsp
    have hlev := levelAt_cancelOrder b order_id o hfind s p
    have hLS := liveSize_cancelOrder b order_id o hfind s p
    have hLC := liveCount_cancelOrder b order_id o hfind s p
    have hp : 0 < o.size := h.1 (order_id, o) (b.orders.mem_of_find order_id o hfind)
    have hle := countAt_le_liveCount b order_id o hfind s p
    have g1' := liveCount_nonneg (b.cancelOrder order_id) s p
    have g2' := liveSize_of_liveCount_zero (b.cancelOrder order_id) s p
    have g3' := liveCount_le_liveSize (b.cancelOrder order_id) hpos' s p
    rcases cancelled_contribution o s p with ⟨hs1, hp1, n1, n2⟩ | ⟨hne, n1, n2⟩
    · rw [n1] at hLS
      rw [n2] at hLC hle
      rw [if_pos ⟨hs1, hp1⟩] at hlev
      cases hlv : b.levelAt s p with
      | none =>
        have := hn hlv
        omega
      | some l =>
        obtain ⟨a1, a2, a3⟩ := hs l hlv
        have hr := range_of_levelAt b s p l hlv
        unfold intMin intMax at hr
        rw [hlv] at hlev
        simp only at hlev
        by_cases hz : wrapInt (l.size - o.size) ≤ 0
        · rw [if_pos hz] at hlev
          rw [hlev]
          unfold wrapInt at hz
          refine ⟨fun _ => by omega, fun l' hl' => Option.noConfusion hl'⟩
        · rw [if_neg hz] at hlev
          rw [hlev]
          unfold wrapInt at hz
          refine ⟨fun hh => Option.noConfusion hh, ?_⟩
          intro l' hl'
          cases hl'
          simp only
          unfold wrapInt
          omega
    · rw [n1] at hLS
      rw [n2] at hLC
      rw [if_neg (fun hh => hne hh)] at hlev
      rw [hlev]
      refine ⟨fun hh => ?_, ?_⟩
      · have := hn hh
        omega
      · intro l hl
        obtain ⟨a1, a2, a3⟩ := hs l hl
        omega

theorem levelAt_empty (s : Char) (p : Price) : OrderBook.empty.levelAt s p = none := by
  unfold levelAt
  split
  · rfl
  · split <;> rfl

theorem levelsExact_empty : LevelsExact OrderBook.empty := by
  refine ⟨fun e he => absurd he (List.not_mem_nil _), ?_⟩
  intro s p _
  refine ⟨fun _ => rfl, ?_⟩
  intro l hl
  rw [levelAt_empty] at hl
  cases hl

theorem levelsSound_empty : LevelsSound OrderBook.empty := by
  refine ⟨fun e he => absurd he (List.not_mem_nil _), ?_⟩
  intro s p _
  refine ⟨fun _ => rfl, ?_⟩
  intro l hl
  rw [levelAt_empty] at hl
  cases hl

theorem levelsSound_run (calls : List BookCall) (b : OrderBook) (h : LevelsSound b)
    (hpos : ∀ c ∈ calls, c.PositiveSize) (hfit : BookCall.Fits b calls) :
    LevelsSound (BookCall.run b calls) := by
  induction calls generalizing b with
  | nil => exact h
  | cons c rest ih =>
    unfold BookCall.run
    rw [List.foldl_cons]
    have hc := hpos c (List.mem_cons_self _ _)
    have hrest : ∀ c' ∈ rest, c'.PositiveSize := fun c' hc' => hpos c' (List.mem_cons_of_mem _ hc')
    cases c with
    | add order_id side price size =>
      exact ih _ (levelsSound_addOrder b order_id side price size h hc hfit.1) hrest hfit.2
    | cancel order_id => exact ih _ (levelsSound_cancelOrder b order_id h) hrest hfit
    | modify order_id new_price new_size =>
      refine ih _ ?_ hrest hfit
      show LevelsSound (b.modifyOrder order_id new_price new_size)
      rw [modifyOrder_eq]
      exact levelsSound_cancelOrder b order_id h
    | clear => exact ih _ levelsSound_empty hrest hfit

theorem levelsExact_run (calls : List BookCall) (b : OrderBook) (h : LevelsExact b)
    (hf : BookCall.FreshAdds b calls) (hfit : BookCall.Fits b calls) :
    LevelsExact (BookCall.run b calls) := by
  induction calls generalizing b with
  | nil => exact h
  | cons c rest ih =>
    unfold BookCall.run
    rw [List.foldl_cons]
    cases c with
    | add order_id side price size =>
      obtain ⟨h1, h2, h3⟩ := hf
      exact ih _ (levelsExact_addOrder b order_id side price size h h2 h1 hfit.1) h3 hfit.2
    | cancel order_id => exact ih _ (levelsExact_cancelOrder b order_id h) hf hfit
    | modify order_id new_price new_size => exact absurd hf (by simp [BookCall.FreshAdds])
    | clear => exact absurd hf (by simp [BookCall.FreshAdds])

end OrderBook

/-! ## Conservation and level existence -/

namespace OrderBook

theorem levelAt_of_mem_getBids (b : OrderBook) (n : Int) (l : OrderBookLevel)
    (h : l ∈ b.getBids n) : b.levelAt 'B' l.price = some l := by
  rw [getBids_eq_take] at h
  have hm := mem_levels_of_keyed b.bids b.bids_keyed n.toNat l h
  unfold levelAt
  rw [if_pos rfl]
  exact b.bids.find_of_mem l.price l hm

theorem levelAt_of_mem_getAsks (b : OrderBook) (n : Int) (l : OrderBookLevel)
    (h : l ∈ b.getAsks n) : b.levelAt 'A' l.price = some l := by
  rw [getAsks_eq_take] at h
  have hm := mem_levels_of_keyed b.asks b.asks_keyed n.toNat l h
  unfold levelAt
  rw [if_neg (by decide), if_pos rfl]
  exact b.asks.find_of_mem l.price l hm

end OrderBook

/-- C1, as the code has it. For every sequence of `addOrder` and `cancelOrder`
calls applied to an empty book in which every `addOrder` uses an order id
that is not live at that moment and a size `> 0`, and in which no `addOrder`
raises the size of its level above 2147483647 (the largest `int`), and for
every side `'B'` or `'A'` and every price, the aggregate size stored at that
price level (0 when there is no level) equals the sum of the sizes of the
live orders of the index at that price on that side; and when that sum is
zero there is no level at that price, so none is returned by `getBids` /
`getAsks`. -/
theorem conservation_of_fresh_adds (calls : List BookCall)
    (hf : BookCall.FreshAdds OrderBook.empty calls)
    (hfit : BookCall.Fits OrderBook.empty calls) (side : Char)
    (hside : side = 'B' ∨ side = 'A') (price : Price) :
    (BookCall.run OrderBook.empty calls).levelSize side price
      = (BookCall.run OrderBook.empty calls).liveSize side price ∧
    ((BookCall.run OrderBook.empty calls).liveSize side price = 0 →
      (BookCall.run OrderBook.empty calls).levelAt side price = none ∧
      (side = 'B' → ∀ n, ∀ l ∈ (BookCall.run OrderBook.empty calls).getBids n,
        l.price ≠ price) ∧
      (side = 'A' → ∀ n, ∀ l ∈ (BookCall.run OrderBook.empty calls).getAsks n,
        l.price ≠ price)) := by
  have hinv := levelsExact_run calls OrderBook.empty levelsExact_empty hf hfit
  obtain ⟨hn, hs⟩ := hinv.2 side price hside
  have g2 := liveSize_of_liveCount_zero (BookCall.run OrderBook.empty calls) side price
  have hnone : (BookCall.run OrderBook.empty calls).liveSize side price = 0 →
      (BookCall.run OrderBook.empty calls).levelAt side price = none := by
    intro hz
    cases hlv : (BookCall.run OrderBook.empty calls).levelAt side price with
    | none => rfl
    | some l =>
      obtain ⟨a1, a2, a3⟩ := hs l hlv
      omega
  refine ⟨?_, fun hz => ⟨hnone hz, ?_, ?_⟩⟩
  · unfold levelSize
    cases hlv : (BookCall.run OrderBook.empty calls).levelAt side price with
    | none =>
      have := hn hlv
      simp only
      omega
    | some l =>
      obtain ⟨a1, a2, a3⟩ := hs l hlv
      simp only
      omega
  · intro hB n l hl hp
    subst hB
    have h1 := levelAt_of_mem_getBids _ n l hl
    rw [hp, hnone hz] at h1
    cases h1
  · intro hA n l hl hp
    subst hA
    have h1 := levelAt_of_mem_getAsks _ n l hl
    rw [hp, hnone hz] at h1
    cases h1

/-- Witness of the amended C1: two buy orders at price 10, the first cancelled. -/
theorem conservation_of_fresh_adds_witness :
    BookCall.FreshAdds OrderBook.empty
      [BookCall.add 1 'B' 10 100, BookCall.add 2 'B' 10 50, BookCall.cancel 1] ∧
    BookCall.Fits OrderBook.empty
      [BookCall.add 1 'B' 10 100, BookCall.add 2 'B' 10 50, BookCall.cancel 1] ∧
    (BookCall.run OrderBook.empty
      [BookCall.add 1 'B' 10 100, BookCall.add 2 'B' 10 50, BookCall.cancel 1]).levelSize 'B' 10
      = (BookCall.run OrderBook.empty
      [BookCall.add 1 'B' 10 100, BookCall.add 2 'B' 10 50, BookCall.cancel 1]).liveSize 'B' 10 :=
  ⟨by decide, by decide,
    (conservation_of_fresh_adds
      [BookCall.add 1 'B' 10 100, BookCall.add 2 'B' 10 50, BookCall.cancel 1]
      (by decide) (by decide) 'B' (Or.inl rfl) 10).1⟩

/-- Counterexample to C1 as stated. After `addOrder 1 'B' 10 100` twice on the
empty book, the bid level at price 10 stores size 200 while the only live
order at that price has size 100; after the single call
`addOrder 1 'B' 10 0` the live sizes at price 10 sum to zero while `getBids`
still returns a level at price 10; and after `addOrder 1 'B' 10 2147483647`
and `addOrder 2 'B' 10 1`, two orders with fresh ids and sizes `> 0`, the
`int` of the level has wrapped to -2147483648 while the live sizes sum to
2147483648. -/
theorem conservation_fails_on_repeated_add :
    (BookCall.run OrderBook.empty
      [BookCall.add 1 'B' 10 100, BookCall.add 1 'B' 10 100]).levelSize 'B' 10 = 200 ∧
    (BookCall.run OrderBook.empty
      [BookCall.add 1 'B' 10 100, BookCall.add 1 'B' 10 100]).liveSize 'B' 10 = 100 ∧
    ¬ ((BookCall.run OrderBook.empty
      [BookCall.add 1 'B' 10 100, BookCall.add 1 'B' 10 100]).levelSize 'B' 10
      = (BookCall.run OrderBook.empty
      [BookCall.add 1 'B' 10 100, BookCall.add 1 'B' 10 100]).liveSize 'B' 10) ∧
    (BookCall.run OrderBook.empty [BookCall.add 1 'B' 10 0]).liveSize 'B' 10 = 0 ∧
    (BookCall.run OrderBook.empty [BookCall.add 1 'B' 10 0]).getBids 10 = [⟨10, 0, 1⟩] ∧
    BookCall.FreshAdds OrderBook.empty
      [BookCall.add 1 'B' 10 2147483647, BookCall.add 2 'B' 10 1] ∧
    (BookCall.run OrderBook.empty
      [BookCall.add 1 'B' 10 2147483647, BookCall.add 2 'B' 10 1]).levelSize 'B' 10
      = -2147483648 ∧
    (BookCall.run OrderBook.empty
      [BookCall.add 1 'B' 10 2147483647, BookCall.add 2 'B' 10 1]).liveSize 'B' 10
      = 2147483648 := by
  decide

/-- C5, as the code has it. In every book reached from the empty book by a
sequence of `addOrder`, `cancelOrder`, `modifyOrder` and `clear` calls in
which every `addOrder` carries a size `> 0` and none raises the size of its
level above 2147483647 (the largest `int`), every price level present in
bids or asks has size `> 0` and count `> 0`. -/
theorem levels_positive_of_positive_adds (calls : List BookCall)
    (hpos : ∀ c ∈ calls, c.PositiveSize) (hfit : BookCall.Fits OrderBook.empty calls) :
    (∀ e ∈ (BookCall.run OrderBook.empty calls).bids.entries, 0 < e.2.size ∧ 0 < e.2.count) ∧
    (∀ e ∈ (BookCall.run OrderBook.empty calls).asks.entries, 0 < e.2.size ∧ 0 < e.2.count) := by
  have hinv := levelsSound_run calls OrderBook.empty levelsSound_empty hpos hfit
  constructor
  · intro e he
    have hfind := (BookCall.run OrderBook.empty calls).bids.find_of_mem e.1 e.2 he
    have hlv : (BookCall.run OrderBook.empty calls).levelAt 'B' e.1 = some e.2 := by
      unfold levelAt
      rw [if_pos rfl]
      exact hfind
    obtain ⟨a1, a2, _⟩ := (hinv.2 'B' e.1 (Or.inl rfl)).2 e.2 hlv
    exact ⟨a1, a2⟩
  · intro e he
    have hfind := (BookCall.run OrderBook.empty calls).asks.find_of_mem e.1 e.2 he
    have hlv : (BookCall.run OrderBook.empty calls).levelAt 'A' e.1 = some e.2 := by
      unfold levelAt
      rw [if_neg (by decide), if_pos rfl]
      exact hfind
    obtain ⟨a1, a2, _⟩ := (hinv.2 'A' e.1 (Or.inr rfl)).2 e.2 hlv
    exact ⟨a1, a2⟩

/-- Witness of the amended C5: an order id added twice, then cancelled and
modified, with a second order left resting. -/
theorem levels_positive_of_positive_adds_witness :
    (∀ c ∈ [BookCall.add 1 'B' 10 100, BookCall.add 1 'B' 10 40, BookCall.cancel 1,
        BookCall.add 2 'A' 11 5, BookCall.modify 1 12 7], c.PositiveSize) ∧
    BookCall.Fits OrderBook.empty
      [BookCall.add 1 'B' 10 100, BookCall.add 1 'B' 10 40, BookCall.cancel 1,
        BookCall.add 2 'A' 11 5, BookCall.modify 1 12 7] ∧
    (∀ e ∈ (BookCall.run OrderBook.empty
        [BookCall.add 1 'B' 10 100, BookCall.add 1 'B' 10 40, BookCall.cancel 1,
          BookCall.add 2 'A' 11 5, BookCall.modify 1 12 7]).bids.entries,
      0 < e.2.size ∧ 0 < e.2.count) :=
  ⟨by decide, by decide,
    (levels_positive_of_positive_adds
      [BookCall.add 1 'B' 10 100, BookCall.add 1 'B' 10 40, BookCall.cancel 1,
        BookCall.add 2 'A' 11 5, BookCall.modify 1 12 7] (by decide) (by decide)).1⟩

/-- Counterexample to C5 as stated. After the single call `addOrder 1 'B' 10 0`
on the empty book the bid side holds a level at price 10 whose size is 0; and
after `addOrder 1 'B' 10 2147483647` and `addOrder 2 'B' 10 1`, both of size
`> 0`, the `int` of the level at price 10 has wrapped to -2147483648. -/
theorem level_with_zero_size_reachable :
    (BookCall.run OrderBook.empty [BookCall.add 1 'B' 10 0]).bids.entries
      = [(10, ⟨10, 0, 1⟩)] ∧
    ¬ (∀ e ∈ (BookCall.run OrderBook.empty [BookCall.add 1 'B' 10 0]).bids.entries,
      0 < e.2.size ∧ 0 < e.2.count) ∧
    (∀ c ∈ [BookCall.add 1 'B' 10 2147483647, BookCall.add 2 'B' 10 1], c.PositiveSize) ∧
    (BookCall.run OrderBook.empty
      [BookCall.add 1 'B' 10 2147483647, BookCall.add 2 'B' 10 1]).bids.entries
      = [(10, ⟨10, -2147483648, 2⟩)] := by
  decide

/-! ## Best levels returned by the snapshot queries -/

namespace OrderBook

theorem levels_beyond_take {lt : Price → Price → Prop} (m : SortedMap Price OrderBookLevel lt)
    (hk : Keyed m) (n : Nat) (l : OrderBookLevel)
    (hl : l ∈ (m.entries.take n).map (fun e => e.2)) (e : Price × OrderBookLevel)
    (he : e ∈ m.entries) (hnot : e.2 ∉ (m.entries.take n).map (fun e => e.2)) :
    lt l.price e.2.price := by
  have hs := m.sorted
  rw [← List.take_append_drop n m.entries, List.pairwise_append] at hs
  rcases List.mem_map.1 hl with ⟨a, ha, rfl⟩
  have he' : e ∈ m.entries.take n ++ m.entries.drop n := by
    rw [List.take_append_drop]; exact he
  rcases List.mem_append.1 he' with h | h
  · exact absurd (List.mem_map.2 ⟨e, h, rfl⟩) hnot
  · have := hs.2.2 a ha e h
    rw [hk a (List.mem_of_mem_take ha), hk e he]
    exact this

theorem length_take_levels (l : List (Price × OrderBookLevel)) (n : Int) :
    ((((l.take n.toNat).map (fun e => e.2)).length : Nat) : Int)
      = min (max n 0) (l.length : Int) := by
  rw [List.length_map, List.length_take]
  omega

end OrderBook

/-- C11. For every book and every integer `n`, `getBids n` (respectively
`getAsks n`) returns exactly `min (max n 0) L` entries, where `L` is the
number of levels of that side; they are the first levels of the side in
iteration order, and every level of the side that is not returned has a price
strictly worse (lower for bids, higher for asks) than every level returned.
Both are `const` methods: they map the book to the returned levels and yield
no new book. -/
theorem getBids_getAsks_best_levels (b : OrderBook) (n : Int) :
    (((b.getBids n).length : Nat) : Int) = min (max n 0) (b.bids.entries.length : Int) ∧
    (((b.getAsks n).length : Nat) : Int) = min (max n 0) (b.asks.entries.length : Int) ∧
    b.getBids n = (b.bids.entries.take n.toNat).map (fun e => e.2) ∧
    b.getAsks n = (b.asks.entries.take n.toNat).map (fun e => e.2) ∧
    (∀ l ∈ b.getBids n, ∀ e ∈ b.bids.entries, e.2 ∉ b.getBids n → e.2.price < l.price) ∧
    (∀ l ∈ b.getAsks n, ∀ e ∈ b.asks.entries, e.2 ∉ b.getAsks n → l.price < e.2.price) := by
  rw [getBids_eq_take, getAsks_eq_take]
  refine ⟨length_take_levels _ n, length_take_levels _ n, rfl, rfl, ?_, ?_⟩
  · intro l hl e he hnot
    exact levels_beyond_take b.bids b.bids_keyed n.toNat l hl e he hnot
  · intro l hl e he hnot
    exact levels_beyond_take b.asks b.asks_keyed n.toNat l hl e he hnot

/-- C12. For every engine state and every event with action `'T'`,
`processRecord` leaves the book unchanged and writes no row (output and row
index unchanged); if the event's side is `'N'` the pending-trade list is
unchanged, otherwise exactly one `PendingTrade` is appended, carrying the
event's sequence number, price and size and an `actual_side` that is `'A'`
when the event's side is `'B'` and `'B'` otherwise (so `'B'` for side `'A'`). -/
theorem trade_event_only_records_pending (r : OrderBookReconstructor) (e : MBORecord)
    (hT : e.action = 'T') :
    (processRecord r e).orderbook = r.orderbook ∧
    (processRecord r e).output = r.output ∧
    (processRecord r e).row_index = r.row_index ∧
    (e.side = 'N' → (processRecord r e).pending_trades = r.pending_trades) ∧
    (e.side ≠ 'N' → ∃ t : PendingTrade,
      (processRecord r e).pending_trades = r.pending_trades ++ [t] ∧
      t.sequence = e.sequence ∧ t.price = e.price ∧ t.size = e.size ∧
      t.actual_side = (if e.side = 'B' then 'A' else 'B') ∧
      (e.side = 'B' → t.actual_side = 'A') ∧ (e.side = 'A' → t.actual_side = 'B')) := by
  have hR : ¬ e.action = 'R' := by rw [hT]; decide
  unfold processRecord
  rw [if_neg hR, if_pos hT]
  by_cases hN : e.side = 'N'
  · rw [if_pos hN]
    exact ⟨rfl, rfl, rfl, fun _ => rfl, fun h => absurd hN h⟩
  · rw [if_neg hN]
    refine ⟨rfl, rfl, rfl, fun h => absurd h hN, fun _ => ⟨pendingOf e, rfl, rfl, rfl, rfl, rfl, ?_, ?_⟩⟩
    · intro hB
      simp [pendingOf, hB]
    · intro hA
      simp [pendingOf, hA]

/-- Witness of C12: a Trade reported on side `'B'` in the fresh engine. -/
theorem trade_event_only_records_pending_witness :
    (processRecord fresh (sampleRecord 'T' 'B' 11 100 0 7)).orderbook = fresh.orderbook ∧
    (processRecord fresh (sampleRecord 'T' 'B' 11 100 0 7)).output = fresh.output :=
  ⟨(trade_event_only_records_pending fresh (sampleRecord 'T' 'B' 11 100 0 7) rfl).1,
    (trade_event_only_records_pending fresh (sampleRecord 'T' 'B' 11 100 0 7) rfl).2.1⟩

/-! ## Rows written per event -/

namespace OrderBookReconstructor

theorem writeMBPRecord_eq (r : OrderBookReconstructor) (record : MBORecord) (a s : Char)
    (d : Int) :
    writeMBPRecord r record a s d =
      { orderbook := r.orderbook
        row_index := r.row_index + 1
        pending_trades := r.pending_trades
        output := r.output ++ [writtenRow r record a s d] } :=
  rfl

theorem processRecord_reset (r : OrderBookReconstructor) (e : MBORecord)
    (hR : e.action = 'R') :
    processRecord r e = writeMBPRecord { r with orderbook := r.orderbook.clear } e 'R' 'N' 0 := by
  unfold processRecord
  rw [if_pos hR]

theorem processRecord_add (r : OrderBookReconstructor) (e : MBORecord) (hA : e.action = 'A') :
    processRecord r e =
      writeMBPRecord
        { r with orderbook := r.orderbook.addOrder e.order_id e.side e.price e.size }
        e 'A' e.side
        (if e.side = 'B' then
          scanDepth e.price 0
            ((r.orderbook.addOrder e.order_id e.side e.price e.size).getBids 10)
        else if e.side = 'A' then
          scanDepth e.price 0
            ((r.orderbook.addOrder e.order_id e.side e.price e.size).getAsks 10)
        else 0) := by
  have hR : ¬ e.action = 'R' := by rw [hA]; decide
  have hT : ¬ e.action = 'T' := by rw [hA]; decide
  have hF : ¬ e.action = 'F' := by rw [hA]; decide
  have hC : ¬ e.action = 'C' := by rw [hA]; decide
  unfold processRecord
  rw [if_neg hR, if_neg hT, if_neg hF, if_neg hC, if_pos hA]

theorem processRecord_modify (r : OrderBookReconstructor) (e : MBORecord)
    (hM : e.action = 'M') :
    processRecord r e =
      writeMBPRecord
        { r with orderbook := r.orderbook.modifyOrder e.order_id e.price e.size }
        e 'M' e.side 0 := by
  have hR : ¬ e.action = 'R' := by rw [hM]; decide
  have hT : ¬ e.action = 'T' := by rw [hM]; decide
  have hF : ¬ e.action = 'F' := by rw [hM]; decide
  have hC : ¬ e.action = 'C' := by rw [hM]; decide
  have hA : ¬ e.action = 'A' := by rw [hM]; decide
  unfold processRecord
  rw [if_neg hR, if_neg hT, if_neg hF, if_neg hC, if_neg hA, if_pos hM]

theorem processRecord_plain_cancel (r : OrderBookReconstructor) (e : MBORecord)
    (hC : e.action = 'C')
    (hnone : r.pending_trades.find? (fun t => decide (t.sequence = e.sequence)) = none) :
    processRecord r e =
      writeMBPRecord { r with orderbook := r.orderbook.cancelOrder e.order_id } e 'C' e.side
        (if e.side = 'B' then scanDepth e.price 0 (r.orderbook.getBids 10)
        else if e.side = 'A' then scanDepth e.price 0 (r.orderbook.getAsks 10)
        else 0) := by
  have hR : ¬ e.action = 'R' := by rw [hC]; decide
  have hT : ¬ e.action = 'T' := by rw [hC]; decide
  have hF : ¬ e.action = 'F' := by rw [hC]; decide
  unfold processRecord
  simp only [if_neg hR, if_neg hT, if_neg hF, if_pos hC, hnone]

theorem processRecord_trade (r : OrderBookReconstructor) (e : MBORecord) (hT : e.action = 'T') :
    processRecord r e =
      if e.side = 'N' then r
      else { r with pending_trades := r.pending_trades ++ [pendingOf e] } := by
  have hR : ¬ e.action = 'R' := by rw [hT]; decide
  unfold processRecord
  rw [if_neg hR, if_pos hT]

theorem processRecord_other (r : OrderBookReconstructor) (e : MBORecord)
    (hR : ¬ e.action = 'R') (hT : ¬ e.action = 'T') (hC : ¬ e.action = 'C')
    (hA : ¬ e.action = 'A') (hM : ¬ e.action = 'M') : processRecord r e = r := by
  unfold processRecord
  rw [if_neg hR, if_neg hT, if_neg hC, if_neg hA, if_neg hM]
  simp

theorem emitted_of_write (r r' : OrderBookReconstructor) (e record : MBORecord) (a s : Char)
    (d : Int) (h : processRecord r e = writeMBPRecord r' record a s d)
    (hout : r'.output = r.output) : emitted r e = [writtenRow r' record a s d] := by
  unfold emitted
  rw [h, writeMBPRecord_eq]
  simp only [hout]
  exact List.drop_left _ _

theorem emitted_of_same_output (r : OrderBookReconstructor) (e : MBORecord)
    (h : (processRecord r e).output = r.output) : emitted r e = [] := by
  unfold emitted
  rw [h]
  exact List.drop_length _

theorem emitted_reset (r : OrderBookReconstructor) (e : MBORecord) (hR : e.action = 'R') :
    emitted r e = [writtenRow { r with orderbook := r.orderbook.clear } e 'R' 'N' 0] :=
  emitted_of_write r _ e e 'R' 'N' 0 (processRecord_reset r e hR) rfl

theorem emitted_add (r : OrderBookReconstructor) (e : MBORecord) (hA : e.action = 'A') :
    emitted r e =
      [writtenRow { r with orderbook := r.orderbook.addOrder e.order_id e.side e.price e.size }
        e 'A' e.side
        (if e.side = 'B' then
          scanDepth e.price 0
            ((r.orderbook.addOrder e.order_id e.side e.price e.size).getBids 10)
        else if e.side = 'A' then
          scanDepth e.price 0
            ((r.orderbook.addOrder e.order_id e.side e.price e.size).getAsks 10)
        else 0)] :=
  emitted_of_write r _ e e 'A' e.side _ (processRecord_add r e hA) rfl

theorem emitted_modify (r : OrderBookReconstructor) (e : MBORecord) (hM : e.action = 'M') :
    emitted r e =
      [writtenRow { r with orderbook := r.orderbook.modifyOrder e.order_id e.price e.size }
        e 'M' e.side 0] :=
  emitted_of_write r _ e e 'M' e.side 0 (processRecord_modify r e hM) rfl

theorem emitted_plain_cancel (r : OrderBookReconstructor) (e : MBORecord)
    (hC : e.action = 'C')
    (hnone : r.pending_trades.find? (fun t => decide (t.sequence = e.sequence)) = none) :
    emitted r e =
      [writtenRow { r with orderbook := r.orderbook.cancelOrder e.order_id } e 'C' e.side
        (if e.side = 'B' then scanDepth e.price 0 (r.orderbook.getBids 10)
        else if e.side = 'A' then scanDepth e.price 0 (r.orderbook.getAsks 10)
        else 0)] :=
  emitted_of_write r _ e e 'C' e.side _ (processRecord_plain_cancel r e hC hnone) rfl

theorem emitted_trade_cancel (r : OrderBookReconstructor) (e : MBORecord) (t : PendingTrade)
    (hC : e.action = 'C')
    (hfind : r.pending_trades.find? (fun t => decide (t.sequence = e.sequence)) = some t) :
    emitted r e =
      [writtenRow { r with orderbook := r.orderbook.cancelOrder e.order_id }
        { e with action := 'T', side := t.actual_side, price := t.price, size := t.size }
        'T' t.actual_side
        (if t.actual_side = 'B' then
          scanDepth t.price 0 ((r.orderbook.cancelOrder e.order_id).getBids 10)
        else scanDepth t.price 0 ((r.orderbook.cancelOrder e.order_id).getAsks 10))] := by
  unfold emitted
  rw [processRecord_trade_cancel r e t hC hfind, writeMBPRecord_eq]
  exact List.drop_left _ _

theorem emitted_silent (r : OrderBookReconstructor) (e : MBORecord)
    (hR : ¬ e.action = 'R') (hC : ¬ e.action = 'C') (hA : ¬ e.action = 'A')
    (hM : ¬ e.action = 'M') : emitted r e = [] := by
  apply emitted_of_same_output
  by_cases hT : e.action = 'T'
  · rw [processRecord_trade r e hT]
    split <;> rfl
  · rw [processRecord_other r e hR hT hC hA hM]

theorem output_eq_append_emitted (r : OrderBookReconstructor) (e : MBORecord) :
    (processRecord r e).output = r.output ++ emitted r e := by
  by_cases hR : e.action = 'R'
  · rw [emitted_reset r e hR, processRecord_reset r e hR, writeMBPRecord_eq]
  by_cases hA : e.action = 'A'
  · rw [emitted_add r e hA, processRecord_add r e hA, writeMBPRecord_eq]
  by_cases hM : e.action = 'M'
  · rw [emitted_modify r e hM, processRecord_modify r e hM, writeMBPRecord_eq]
  by_cases hC : e.action = 'C'
  · cases hfind : r.pending_trades.find? (fun t => decide (t.sequence = e.sequence)) with
    | none =>
      rw [emitted_plain_cancel r e hC hfind, processRecord_plain_cancel r e hC hfind,
        writeMBPRecord_eq]
    | some t =>
      rw [emitted_trade_cancel r e t hC hfind, processRecord_trade_cancel r e t hC hfind,
        writeMBPRecord_eq]
  · rw [emitted_silent r e hR hC hA hM, List.append_nil]
    by_cases hT : e.action = 'T'
    · rw [processRecord_trade r e hT]
      split <;> rfl
    · rw [processRecord_other r e hR hT hC hA hM]

end OrderBookReconstructor

namespace OrderBookReconstructor

theorem emitted_length (r : OrderBookReconstructor) (e : MBORecord) :
    (emitted r e).length = if e.NotDropped then 1 else 0 := by
  unfold MBORecord.NotDropped
  by_cases hR : e.action = 'R'
  · rw [emitted_reset r e hR, if_pos (Or.inl hR)]; rfl
  by_cases hA : e.action = 'A'
  · rw [emitted_add r e hA, if_pos (Or.inr (Or.inl hA))]; rfl
  by_cases hM : e.action = 'M'
  · rw [emitted_modify r e hM, if_pos (Or.inr (Or.inr (Or.inl hM)))]; rfl
  by_cases hC : e.action = 'C'
  · rw [if_pos (Or.inr (Or.inr (Or.inr hC)))]
    cases hfind : r.pending_trades.find? (fun t => decide (t.sequence = e.sequence)) with
    | none => rw [emitted_plain_cancel r e hC hfind]; rfl
    | some t => rw [emitted_trade_cancel r e t hC hfind]; rfl
  · rw [emitted_silent r e hR hC hA hM, if_neg]
    · rfl
    · intro h
      rcases h with h | h | h | h
      · exact hR h
      · exact hA h
      · exact hM h
      · exact hC h

theorem output_length_processAll (es : List MBORecord) (r : OrderBookReconstructor) :
    (processAll r es).output.length
      = r.output.length + (es.filter (fun e => decide e.NotDropped)).length := by
  induction es generalizing r with
  | nil => rfl
  | cons e rest ih =>
    have hstep : processAll r (e :: rest) = processAll (processRecord r e) rest := rfl
    rw [hstep, ih, output_eq_append_emitted, List.length_append, emitted_length,
      List.filter_cons]
    by_cases h : e.NotDropped
    · simp only [h, if_true, decide_True, List.length_cons]
      omega
    · simp only [h, if_false, decide_False]
      rfl

end OrderBookReconstructor

/-- C13. Row count: for every event sequence processed from a fresh engine,
the number of rows written equals the number of events with action `'R'`,
`'A'`, `'M'` or `'C'`. From every state, an event with action `'F'` or `'T'`
writes no row and a Cancel writes exactly one row, whether or not it matches a
pending trade; so a pending trade that no Cancel matches contributes no row. -/
theorem row_count (es : List MBORecord) :
    (processAll fresh es).output.length
      = (es.filter (fun e => decide e.NotDropped)).length ∧
    (∀ (r : OrderBookReconstructor) (e : MBORecord),
      e.action = 'F' ∨ e.action = 'T' → emitted r e = [] ∧
        (processRecord r e).output = r.output) ∧
    (∀ (r : OrderBookReconstructor) (e : MBORecord),
      e.action = 'C' → ∃ row, emitted r e = [row] ∧
        (processRecord r e).output = r.output ++ [row]) := by
  refine ⟨?_, ?_, ?_⟩
  · rw [output_length_processAll]
    exact Nat.zero_add _
  · intro r e h
    have hR : ¬ e.action = 'R' := by rcases h with h | h <;> rw [h] <;> decide
    have hC : ¬ e.action = 'C' := by rcases h with h | h <;> rw [h] <;> decide
    have hA : ¬ e.action = 'A' := by rcases h with h | h <;> rw [h] <;> decide
    have hM : ¬ e.action = 'M' := by rcases h with h | h <;> rw [h] <;> decide
    have h0 := emitted_silent r e hR hC hA hM
    refine ⟨h0, ?_⟩
    rw [output_eq_append_emitted, h0, List.append_nil]
  · intro r e hC
    have hlen := emitted_length r e
    have hnd : e.NotDropped := Or.inr (Or.inr (Or.inr hC))
    rw [if_pos hnd] at hlen
    obtain ⟨row, hrow⟩ := List.length_eq_one.1 hlen
    exact ⟨row, hrow, by rw [output_eq_append_emitted, hrow]⟩

/-- C14. End-to-end scenario: from a fresh engine, whatever the remaining
fields of the four events, processing a reset (action `'R'`, side `'N'`,
size 0), an Add of buy order 1 at price 10 with size 100, an Add of sell
order 2 at price 11 with size 100 and a Cancel (side `'B'`, price 10,
size 100) of order 1 writes exactly four rows; in the last row, which is
tagged `'C'`, the rank-0 bid group is absent (empty price, size 0, count 0)
and the rank-0 ask group is price 11, size 100, count 1. -/
theorem end_to_end_scenario (m₁ m₂ m₃ m₄ : MBORecord) :
    (processAll fresh
      [{ m₁ with action := 'R', side := 'N', size := 0 },
       { m₂ with action := 'A', side := 'B', price := 10, size := 100, order_id := 1 },
       { m₃ with action := 'A', side := 'A', price := 11, size := 100, order_id := 2 },
       { m₄ with action := 'C', side := 'B', price := 10, size := 100, order_id := 1 }]
      ).output.length = 4 ∧
    ((processAll fresh
      [{ m₁ with action := 'R', side := 'N', size := 0 },
       { m₂ with action := 'A', side := 'B', price := 10, size := 100, order_id := 1 },
       { m₃ with action := 'A', side := 'A', price := 11, size := 100, order_id := 2 },
       { m₄ with action := 'C', side := 'B', price := 10, size := 100, order_id := 1 }]
      ).output.getLast?).map (fun row => (row.action, row.levels.head?))
      = some ('C', some (⟨none, 0, 0⟩, ⟨some 11, 100, 1⟩)) :=
  ⟨rfl, rfl⟩

/-! ## Depth lookup -/

namespace OrderBookReconstructor

theorem scanDepth_take (lt : Price → Price → Prop) [DecidableRel lt] [IsIrrefl Price lt]
    [IsTrans Price lt] (p : Price) (l : List (Price × OrderBookLevel))
    (hs : l.Pairwise (fun a b => lt a.1 b.1)) (hk : ∀ e ∈ l, e.2.price = e.1) (n : Nat)
    (i : Int) :
    scanDepth p i ((l.take n).map (fun e => e.2)) =
      if (findEntry p l).isSome = true ∧ (l.filter (fun e => decide (lt e.1 p))).length < n then
        i + ((l.filter (fun e => decide (lt e.1 p))).length : Nat)
      else 0 := by
  induction l generalizing n i with
  | nil => simp [scanDepth, findEntry]
  | cons e rest ih =>
    rw [List.pairwise_cons] at hs
    cases n with
    | zero => simp [scanDepth]
    | succ n =>
      have hke : e.2.price = e.1 := hk e (List.mem_cons_self _ _)
      have hk' : ∀ x ∈ rest, x.2.price = x.1 := fun x hx => hk x (List.mem_cons_of_mem _ hx)
      rw [List.take_succ_cons, List.map_cons]
      unfold scanDepth
      rw [hke]
      by_cases hp : e.1 = p
      · rw [if_pos hp]
        have hnil : rest.filter (fun e => decide (lt e.1 p)) = [] := by
          rw [List.filter_eq_nil_iff]
          intro x hx hlt
          have h1 := hs.1 x hx
          rw [hp] at h1
          have h2 : lt x.1 p := by simpa using hlt
          exact irrefl_of lt p (IsTrans.trans _ _ _ h1 h2)
        have hirr : ¬ lt p p := irrefl_of lt p
        simp [List.filter_cons, hirr, hnil, findEntry, hp]
      · rw [if_neg hp, ih hs.2 hk' n (i + 1)]
        have hfind : findEntry p (e :: rest) = findEntry p rest := by
          simp [findEntry, hp]
        rw [hfind]
        cases hf : findEntry p rest with
        | none => simp
        | some v =>
          have hmem := mem_of_findEntry p v rest hf
          have hlt : lt e.1 p := hs.1 (p, v) hmem
          simp only [List.filter_cons, hlt, decide_True, if_true, List.length_cons,
            Option.isSome_some, true_and, Nat.succ_lt_succ_iff, Nat.cast_add, Nat.cast_one]
          split <;> omega

end OrderBookReconstructor

namespace OrderBook

theorem betterLevels_bids (b : OrderBook) (p : Price) :
    b.betterLevels 'B' p = (b.bids.entries.filter (fun e => decide (e.1 > p))).length := by
  unfold betterLevels
  rw [if_pos rfl]
  congr 1
  apply List.filter_congr
  intro e he
  rw [b.bids_keyed e he]

theorem betterLevels_asks (b : OrderBook) (p : Price) :
    b.betterLevels 'A' p = (b.asks.entries.filter (fun e => decide (e.1 < p))).length := by
  have hAB : ¬ ('A' = 'B') := by decide
  unfold betterLevels
  rw [if_neg hAB, if_pos rfl]
  congr 1
  apply List.filter_congr
  intro e he
  rw [b.asks_keyed e he]

theorem scanDepth_getBids (b : OrderBook) (p : Price) :
    OrderBookReconstructor.scanDepth p 0 (b.getBids 10) =
      if (b.levelAt 'B' p).isSome = true ∧ b.betterLevels 'B' p < 10 then
        (b.betterLevels 'B' p : Int)
      else 0 := by
  rw [getBids_eq_take, betterLevels_bids]
  have h := OrderBookReconstructor.scanDepth_take (fun a c : Price => a > c) p b.bids.entries
    b.bids.sorted b.bids_keyed 10 0
  have h10 : (10 : Int).toNat = 10 := rfl
  rw [h10, h, Int.zero_add]
  unfold levelAt
  rw [if_pos rfl]
  rfl

theorem scanDepth_getAsks (b : OrderBook) (p : Price) :
    OrderBookReconstructor.scanDepth p 0 (b.getAsks 10) =
      if (b.levelAt 'A' p).isSome = true ∧ b.betterLevels 'A' p < 10 then
        (b.betterLevels 'A' p : Int)
      else 0 := by
  rw [getAsks_eq_take, betterLevels_asks]
  have h := OrderBookReconstructor.scanDepth_take (fun a c : Price => a < c) p b.asks.entries
    b.asks.sorted b.asks_keyed 10 0
  have h10 : (10 : Int).toNat = 10 := rfl
  have hAB : ¬ ('A' = 'B') := by decide
  rw [h10, h, Int.zero_add]
  unfold levelAt
  rw [if_neg hAB, if_pos rfl]
  rfl

end OrderBook

/-- C15. Add depth: for every engine state and every Add event with side
`'B'` or `'A'` and price `p` (whatever its size), `processRecord` applies
`addOrder` and writes one row tagged `'A'` with the event's side; the level at
`p` exists on that side after the insertion, and the row's depth is its
0-based rank there (the number of levels of that side with a strictly better
price) when that rank is below 10, and 0 when it is not, i.e. when the level
is not among the top 10. -/
theorem add_depth (r : OrderBookReconstructor) (e : MBORecord) (hA : e.action = 'A')
    (hside : e.side = 'B' ∨ e.side = 'A') :
    (processRecord r e).orderbook
      = r.orderbook.addOrder e.order_id e.side e.price e.size ∧
    ((r.orderbook.addOrder e.order_id e.side e.price e.size).levelAt e.side e.price).isSome
      = true ∧
    ∃ row : Row,
      (processRecord r e).output = r.output ++ [row] ∧ emitted r e = [row] ∧
      row.action = 'A' ∧ row.side = e.side ∧
      row.depth =
        if (r.orderbook.addOrder e.order_id e.side e.price e.size).betterLevels e.side e.price
            < 10 then
          ((r.orderbook.addOrder e.order_id e.side e.price e.size).betterLevels e.side e.price
            : Int)
        else 0 := by
  have hlev : ((r.orderbook.addOrder e.order_id e.side e.price e.size).levelAt
      e.side e.price).isSome = true := by
    rw [levelAt_addOrder, if_pos ⟨hside, rfl, rfl⟩]
    rfl
  refine ⟨by rw [processRecord_add r e hA]; rfl, hlev, _, ?_, emitted_add r e hA, rfl, rfl, ?_⟩
  · rw [processRecord_add r e hA, writeMBPRecord_eq]
  · show (if e.side = 'B' then
        scanDepth e.price 0 ((r.orderbook.addOrder e.order_id e.side e.price e.size).getBids 10)
      else if e.side = 'A' then
        scanDepth e.price 0 ((r.orderbook.addOrder e.order_id e.side e.price e.size).getAsks 10)
      else 0) = _
    rcases hside with hB | hA'
    · rw [if_pos hB, scanDepth_getBids]
      rw [hB] at hlev
      rw [hB]
      simp only [hlev, true_and]
    · have hnB : ¬ e.side = 'B' := by rw [hA']; decide
      rw [if_neg hnB, if_pos hA', scanDepth_getAsks]
      rw [hA'] at hlev
      rw [hA']
      simp only [hlev, true_and]

/-- Witness of C15: a buy order added at price 10 below a resting bid at 11
gets depth 1. -/
theorem add_depth_witness :
    (processRecord (processAll fresh [sampleRecord 'A' 'B' 11 100 1 1])
        (sampleRecord 'A' 'B' 10 100 2 2)).orderbook
      = (processAll fresh [sampleRecord 'A' 'B' 11 100 1 1]).orderbook.addOrder 2 'B' 10 100 :=
  (add_depth (processAll fresh [sampleRecord 'A' 'B' 11 100 1 1])
    (sampleRecord 'A' 'B' 10 100 2 2) rfl (Or.inl rfl)).1

/-- C16, as the code has it. Ordinary cancel depth: for every engine state
and every Cancel event whose sequence number matches no pending trade,
`processRecord` writes one row tagged `'C'` with the event's side whose depth
is the 0-based rank, in the book as it was before the cancel was applied, of
the price level at the event's price on the event's side when that level
exists and its rank is below 10, and 0 otherwise; this is the level the
cancelled order rests on whenever the event carries the side and price stored
for the order. The cancel is then applied to the book. -/
theorem plain_cancel_depth (r : OrderBookReconstructor) (e : MBORecord)
    (hC : e.action = 'C') (hnone : ∀ t ∈ r.pending_trades, t.sequence ≠ e.sequence) :
    (processRecord r e).orderbook = r.orderbook.cancelOrder e.order_id ∧
    ∃ row : Row,
      (processRecord r e).output = r.output ++ [row] ∧ emitted r e = [row] ∧
      row.action = 'C' ∧ row.side = e.side ∧
      row.depth =
        (if (r.orderbook.levelAt e.side e.price).isSome = true ∧
            r.orderbook.betterLevels e.side e.price < 10 then
          (r.orderbook.betterLevels e.side e.price : Int)
        else 0) ∧
      (∀ o : Order, r.orderbook.orders.find e.order_id = some o →
        o.side = e.side → o.price = e.price →
        row.depth =
          if (r.orderbook.levelAt o.side o.price).isSome = true ∧
              r.orderbook.betterLevels o.side o.price < 10 then
            (r.orderbook.betterLevels o.side o.price : Int)
          else 0) := by
  have hfind : r.pending_trades.find? (fun t => decide (t.sequence = e.sequence)) = none := by
    rw [List.find?_eq_none]
    intro t ht
    simpa using hnone t ht
  have hdepth : (if e.side = 'B' then scanDepth e.price 0 (r.orderbook.getBids 10)
      else if e.side = 'A' then scanDepth e.price 0 (r.orderbook.getAsks 10)
      else 0) =
      (if (r.orderbook.levelAt e.side e.price).isSome = true ∧
          r.orderbook.betterLevels e.side e.price < 10 then
        (r.orderbook.betterLevels e.side e.price : Int)
      else 0) := by
    by_cases hB : e.side = 'B'
    · rw [if_pos hB, scanDepth_getBids, hB]
    · by_cases hA : e.side = 'A'
      · rw [if_neg hB, if_pos hA, scanDepth_getAsks, hA]
      · rw [if_neg hB, if_neg hA]
        have : r.orderbook.levelAt e.side e.price = none := by
          unfold levelAt
          rw [if_neg hB, if_neg hA]
        rw [this]
        simp
  refine ⟨by rw [processRecord_plain_cancel r e hC hfind]; rfl, _, ?_,
    emitted_plain_cancel r e hC hfind, rfl, rfl, hdepth, ?_⟩
  · rw [processRecord_plain_cancel r e hC hfind, writeMBPRecord_eq]
  · intro o _ hs hp
    rw [hs, hp]
    exact hdepth

/-- Witness of the amended C16: cancelling the lower of two resting bids,
reported at its own price 10. -/
theorem plain_cancel_depth_witness :
    (processRecord
        (processAll fresh [sampleRecord 'A' 'B' 10 100 1 1, sampleRecord 'A' 'B' 11 100 2 2])
        (sampleRecord 'C' 'B' 10 100 1 3)).orderbook
      = (processAll fresh [sampleRecord 'A' 'B' 10 100 1 1,
          sampleRecord 'A' 'B' 11 100 2 2]).orderbook.cancelOrder 1 :=
  (plain_cancel_depth
    (processAll fresh [sampleRecord 'A' 'B' 10 100 1 1, sampleRecord 'A' 'B' 11 100 2 2])
    (sampleRecord 'C' 'B' 10 100 1 3) rfl (by decide)).1

/-- Counterexample to C16 as stated. With buy order 1 resting at price 10 and
buy order 2 at price 11, a Cancel event for order 1 that reports price 11
matches no pending trade and cancels the live order 1; the level order 1
rests on (price 10) has rank 1 among the bids before the cancel, yet the row
written for the Cancel has depth 0, the rank of the reported price 11. -/
theorem plain_cancel_depth_follows_event_price :
    (processAll fresh [sampleRecord 'A' 'B' 10 100 1 1,
      sampleRecord 'A' 'B' 11 100 2 2]).orderbook.orders.find 1 = some ⟨1, 'B', 10, 100⟩ ∧
    (processAll fresh [sampleRecord 'A' 'B' 10 100 1 1,
      sampleRecord 'A' 'B' 11 100 2 2]).orderbook.getBids 10
      = [⟨11, 100, 1⟩, ⟨10, 100, 1⟩] ∧
    (processAll fresh [sampleRecord 'A' 'B' 10 100 1 1,
      sampleRecord 'A' 'B' 11 100 2 2]).orderbook.betterLevels 'B' 10 = 1 ∧
    (emitted
      (processAll fresh [sampleRecord 'A' 'B' 10 100 1 1, sampleRecord 'A' 'B' 11 100 2 2])
      (sampleRecord 'C' 'B' 11 100 1 3)).map (fun row => (row.action, row.depth))
      = [('C', 0)] ∧
    (processRecord
      (processAll fresh [sampleRecord 'A' 'B' 10 100 1 1, sampleRecord 'A' 'B' 11 100 2 2])
      (sampleRecord 'C' 'B' 11 100 1 3)).orderbook.getBids 10 = [⟨11, 100, 1⟩] := by
  decide

/-! ## Content of the rows -/

namespace OrderBookReconstructor

/-- Every row written for an event carries the snapshot of the book as it is
after the event has been applied. -/
theorem emitted_levels (r : OrderBookReconstructor) (e : MBORecord) (row : Row)
    (hrow : row ∈ emitted r e) :
    row.levels = (List.range 10).map (fun i =>
      (levelColumns ((processRecord r e).orderbook.getBids 10) i,
        levelColumns ((processRecord r e).orderbook.getAsks 10) i)) := by
  by_cases hR : e.action = 'R'
  · rw [emitted_reset r e hR, List.mem_singleton] at hrow
    rw [hrow, processRecord_reset r e hR]
    rfl
  by_cases hA : e.action = 'A'
  · rw [emitted_add r e hA, List.mem_singleton] at hrow
    rw [hrow, processRecord_add r e hA]
    rfl
  by_cases hM : e.action = 'M'
  · rw [emitted_modify r e hM, List.mem_singleton] at hrow
    rw [hrow, processRecord_modify r e hM]
    rfl
  by_cases hC : e.action = 'C'
  · cases hfind : r.pending_trades.find? (fun t => decide (t.sequence = e.sequence)) with
    | none =>
      rw [emitted_plain_cancel r e hC hfind, List.mem_singleton] at hrow
      rw [hrow, processRecord_plain_cancel r e hC hfind]
      rfl
    | some t =>
      rw [emitted_trade_cancel r e t hC hfind, List.mem_singleton] at hrow
      rw [hrow, processRecord_trade_cancel r e t hC hfind]
      rfl
  · rw [emitted_silent r e hR hC hA hM] at hrow
    exact absurd hrow (List.not_mem_nil _)

theorem levelColumns_of_some (levels : List OrderBookLevel) (i : Nat) (l : OrderBookLevel)
    (h : levels.get? i = some l) : levelColumns levels i = ⟨some l.price, l.size, l.count⟩ := by
  unfold levelColumns
  rw [h]

theorem levelColumns_of_none (levels : List OrderBookLevel) (i : Nat)
    (h : levels.get? i = none) : levelColumns levels i = ⟨none, 0, 0⟩ := by
  unfold levelColumns
  rw [h]

theorem get?_take_levels (l : List (Price × OrderBookLevel)) (i : Nat) (hi : i < 10) :
    (l.length ≤ i → ((l.take 10).map (fun e => e.2)).get? i = none) ∧
    (i < l.length → ∃ v, ((l.take 10).map (fun e => e.2)).get? i = some v) := by
  constructor
  · intro h
    rw [List.get?_eq_none]
    rw [List.length_map, List.length_take]
    omega
  · intro h
    cases hg : ((l.take 10).map (fun e => e.2)).get? i with
    | some v => exact ⟨v, rfl⟩
    | none =>
      rw [List.get?_eq_none, List.length_map, List.length_take] at hg
      omega

end OrderBookReconstructor

/-- C17. Snapshot content: every row written for an event, from every engine
state, carries exactly 10 pairs of a bid group and an ask group; for each rank
`i` in 0..9 the bid (ask) group is the `i`-th entry (price, size, count) of
`getBids 10` (`getAsks 10`) evaluated on the book as it is after the event
has been applied, which exists when the side has more than `i` levels, and is
the absent group (empty price, size 0, count 0) when the side has at most `i`
levels. -/
theorem snapshot_content (r : OrderBookReconstructor) (e : MBORecord) (row : Row)
    (hrow : row ∈ emitted r e) :
    row.levels.length = 10 ∧
    ∀ i, i < 10 → ∃ bid ask : LevelColumns,
      row.levels.get? i = some (bid, ask) ∧
      (∀ l, ((processRecord r e).orderbook.getBids 10).get? i = some l →
        bid = ⟨some l.price, l.size, l.count⟩) ∧
      (i < (processRecord r e).orderbook.bids.entries.length →
        ∃ l, ((processRecord r e).orderbook.getBids 10).get? i = some l) ∧
      ((processRecord r e).orderbook.bids.entries.length ≤ i → bid = ⟨none, 0, 0⟩) ∧
      (∀ l, ((processRecord r e).orderbook.getAsks 10).get? i = some l →
        ask = ⟨some l.price, l.size, l.count⟩) ∧
      (i < (processRecord r e).orderbook.asks.entries.length →
        ∃ l, ((processRecord r e).orderbook.getAsks 10).get? i = some l) ∧
      ((processRecord r e).orderbook.asks.entries.length ≤ i → ask = ⟨none, 0, 0⟩) := by
  have hlev := emitted_levels r e row hrow
  have h10 : (10 : Int).toNat = 10 := rfl
  refine ⟨by rw [hlev, List.length_map, List.length_range], ?_⟩
  intro i hi
  refine ⟨levelColumns ((processRecord r e).orderbook.getBids 10) i,
    levelColumns ((processRecord r e).orderbook.getAsks 10) i, ?_, ?_, ?_, ?_, ?_, ?_, ?_⟩
  · rw [hlev, List.get?_eq_getElem?, List.getElem?_map, List.getElem?_range hi]
    rfl
  · intro l hl
    exact levelColumns_of_some _ i l hl
  · intro h
    rw [getBids_eq_take, h10]
    exact (get?_take_levels _ i hi).2 h
  · intro h
    apply levelColumns_of_none
    rw [getBids_eq_take, h10]
    exact (get?_take_levels _ i hi).1 h
  · intro l hl
    exact levelColumns_of_some _ i l hl
  · intro h
    rw [getAsks_eq_take, h10]
    exact (get?_take_levels _ i hi).2 h
  · intro h
    apply levelColumns_of_none
    rw [getAsks_eq_take, h10]
    exact (get?_take_levels _ i hi).1 h

/-- Witness of C17: the row written for an Add into the fresh engine. -/
theorem snapshot_content_witness :
    writtenRow ⟨OrderBook.empty.addOrder 1 'B' 10 100, 0, [], []⟩
        (sampleRecord 'A' 'B' 10 100 1 1) 'A' 'B' 0
      ∈ emitted fresh (sampleRecord 'A' 'B' 10 100 1 1) ∧
    (writtenRow ⟨OrderBook.empty.addOrder 1 'B' 10 100, 0, [], []⟩
        (sampleRecord 'A' 'B' 10 100 1 1) 'A' 'B' 0).levels.length = 10 :=
  ⟨by decide,
    (snapshot_content fresh (sampleRecord 'A' 'B' 10 100 1 1)
      (writtenRow ⟨OrderBook.empty.addOrder 1 'B' 10 100, 0, [], []⟩
        (sampleRecord 'A' 'B' 10 100 1 1) 'A' 'B' 0) (by decide)).1⟩

namespace OrderBookReconstructor

/-- The fields of every written row that `writeMBPRecord` takes from the
record being processed, in every branch of `processRecord`. -/
theorem emitted_metadata (r : OrderBookReconstructor) (e : MBORecord) (row : Row)
    (hrow : row ∈ emitted r e) :
    row.index = r.row_index ∧ row.ts_event = e.ts_event ∧ row.rtype = 10 ∧
    row.publisher_id = e.publisher_id ∧ row.instrument_id = e.instrument_id ∧
    row.flags = e.flags ∧ row.ts_in_delta = e.ts_in_delta ∧ row.sequence = e.sequence ∧
    row.symbol = e.symbol ∧ row.order_id = e.order_id := by
  by_cases hR : e.action = 'R'
  · rw [emitted_reset r e hR, List.mem_singleton] at hrow
    rw [hrow]
    exact ⟨rfl, rfl, rfl, rfl, rfl, rfl, rfl, rfl, rfl, rfl⟩
  by_cases hA : e.action = 'A'
  · rw [emitted_add r e hA, List.mem_singleton] at hrow
    rw [hrow]
    exact ⟨rfl, rfl, rfl, rfl, rfl, rfl, rfl, rfl, rfl, rfl⟩
  by_cases hM : e.action = 'M'
  · rw [emitted_modify r e hM, List.mem_singleton] at hrow
    rw [hrow]
    exact ⟨rfl, rfl, rfl, rfl, rfl, rfl, rfl, rfl, rfl, rfl⟩
  by_cases hC : e.action = 'C'
  · cases hfind : r.pending_trades.find? (fun t => decide (t.sequence = e.sequence)) with
    | none =>
      rw [emitted_plain_cancel r e hC hfind, List.mem_singleton] at hrow
      rw [hrow]
      exact ⟨rfl, rfl, rfl, rfl, rfl, rfl, rfl, rfl, rfl, rfl⟩
    | some t =>
      rw [emitted_trade_cancel r e t hC hfind, List.mem_singleton] at hrow
      rw [hrow]
      exact ⟨rfl, rfl, rfl, rfl, rfl, rfl, rfl, rfl, rfl, rfl⟩
  · rw [emitted_silent r e hR hC hA hM] at hrow
    exact absurd hrow (List.not_mem_nil _)

end OrderBookReconstructor

/-- C18, as the code has it. Pass-through fields: for every row written for
an event, in particular for a Clear, Add, Modify or ordinary Cancel event, the
row's `ts_event`, `publisher_id` and `instrument_id` columns equal the event
timestamp, publisher id and instrument id of the triggering event, and the
row's `rtype` column is the constant 10, whatever the record type of the
event. -/
theorem pass_through_fields (r : OrderBookReconstructor) (e : MBORecord)
    (row : Row) (hrow : row ∈ emitted r e) :
    row.ts_event = e.ts_event ∧ row.publisher_id = e.publisher_id ∧
    row.instrument_id = e.instrument_id ∧ row.rtype = 10 := by
  obtain ⟨_, h1, h2, h3, h4, _⟩ := emitted_metadata r e row hrow
  exact ⟨h1, h3, h4, h2⟩

/-- Witness of the amended C18: the row written for an Add into the fresh
engine. -/
theorem pass_through_fields_witness :
    writtenRow ⟨OrderBook.empty.addOrder 1 'B' 10 100, 0, [], []⟩
        (sampleRecord 'A' 'B' 10 100 1 1) 'A' 'B' 0
      ∈ emitted fresh (sampleRecord 'A' 'B' 10 100 1 1) ∧
    (writtenRow ⟨OrderBook.empty.addOrder 1 'B' 10 100, 0, [], []⟩
        (sampleRecord 'A' 'B' 10 100 1 1) 'A' 'B' 0).ts_event
      = (sampleRecord 'A' 'B' 10 100 1 1).ts_event :=
  ⟨by decide,
    (pass_through_fields fresh (sampleRecord 'A' 'B' 10 100 1 1)
      (writtenRow ⟨OrderBook.empty.addOrder 1 'B' 10 100, 0, [], []⟩
        (sampleRecord 'A' 'B' 10 100 1 1) 'A' 'B' 0) (by decide)).1⟩

/-- Counterexample to C18 as stated. The Add event of the test suite has
record type 160 and a receipt timestamp different from its event timestamp;
the row written for it in the fresh engine has `rtype` 10, and its `ts_recv`
column holds the event timestamp. -/
theorem pass_through_rtype_is_constant :
    (sampleRecord 'A' 'B' 10 100 1 1).rtype = 160 ∧
    (emitted fresh (sampleRecord 'A' 'B' 10 100 1 1)).map (fun row => row.rtype) = [10] ∧
    (sampleRecord 'A' 'B' 10 100 1 1).ts_recv = "2025-07-17T08:05:03.360842448Z" ∧
    (emitted fresh (sampleRecord 'A' 'B' 10 100 1 1)).map (fun row => row.ts_recv)
      = ["2025-07-17T08:05:03.360677248Z"] := by
  decide

/-- C19, as the code has it. Trade metadata echo: when a Cancel event
resolves a pending trade, the row written is tagged `'T'` and its event
timestamp, publisher and instrument ids, flags, ts_in_delta, sequence, symbol
and order id are those of the Cancel event; only its side, price and size come
from the `PendingTrade` recorded for the Trade event. -/
theorem trade_row_metadata (r : OrderBookReconstructor) (e : MBORecord) (t : PendingTrade)
    (hC : e.action = 'C')
    (hfind : r.pending_trades.find? (fun t => decide (t.sequence = e.sequence)) = some t)
    (row : Row) (hrow : row ∈ emitted r e) :
    row.ts_event = e.ts_event ∧ row.publisher_id = e.publisher_id ∧
    row.instrument_id = e.instrument_id ∧ row.flags = e.flags ∧
    row.ts_in_delta = e.ts_in_delta ∧ row.sequence = e.sequence ∧
    row.symbol = e.symbol ∧ row.order_id = e.order_id ∧
    row.action = 'T' ∧ row.side = t.actual_side ∧ row.price = priceColumn t.price ∧
    row.size = t.size := by
  obtain ⟨_, h1, _, h3, h4, h5, h6, h7, h8, h9⟩ := emitted_metadata r e row hrow
  rw [emitted_trade_cancel r e t hC hfind, List.mem_singleton] at hrow
  rw [hrow] at h1 h3 h4 h5 h6 h7 h8 h9 ⊢
  exact ⟨h1, h3, h4, h5, h6, h7, h8, h9, rfl, rfl, rfl, rfl⟩

/-- Witness of the amended C19: a Trade with sequence 7 resolved by the Cancel
of order 2. -/
theorem trade_row_metadata_witness :
    writtenRow ⟨OrderBook.empty, 0, [pendingOf (sampleRecord 'T' 'B' 11 100 0 7)], []⟩
        (sampleRecord 'T' 'A' 11 100 2 7) 'T' 'A' 0
      ∈ emitted (processAll fresh [sampleRecord 'T' 'B' 11 100 0 7])
        (sampleRecord 'C' 'A' 11 100 2 7) ∧
    (writtenRow ⟨OrderBook.empty, 0, [pendingOf (sampleRecord 'T' 'B' 11 100 0 7)], []⟩
        (sampleRecord 'T' 'A' 11 100 2 7) 'T' 'A' 0).order_id
      = (sampleRecord 'C' 'A' 11 100 2 7).order_id :=
  ⟨by decide,
    (trade_row_metadata (processAll fresh [sampleRecord 'T' 'B' 11 100 0 7])
      (sampleRecord 'C' 'A' 11 100 2 7) (pendingOf (sampleRecord 'T' 'B' 11 100 0 7))
      rfl (by decide)
      (writtenRow ⟨OrderBook.empty, 0, [pendingOf (sampleRecord 'T' 'B' 11 100 0 7)], []⟩
        (sampleRecord 'T' 'A' 11 100 2 7) 'T' 'A' 0) (by decide)).2.2.2.2.2.2.2.1⟩

/-- Counterexample to C19 as stated. A Trade event with order id 0, flags 130
and the event timestamp of the test suite is recorded as a pending trade with
exactly these values; the Cancel event with the same sequence number 7 has
order id 2, flags 0 and a later event timestamp, and the row written for the
pair carries the Cancel's event timestamp, flags and order id. -/
theorem trade_row_echoes_cancel_metadata :
    (processAll fresh [sampleRecord 'T' 'B' 11 100 0 7]).pending_trades.map
        (fun t => (t.ts_event, t.flags, t.order_id))
      = [("2025-07-17T08:05:03.360677248Z", 130, 0)] ∧
    (emitted (processAll fresh [sampleRecord 'T' 'B' 11 100 0 7])
        { sampleRecord 'C' 'A' 11 100 2 7 with
          ts_event := "2025-07-17T08:09:48.860696464Z", flags := 0 }).map
        (fun row => (row.action, row.ts_event, row.flags, row.order_id))
      = [('T', "2025-07-17T08:09:48.860696464Z", 0, 2)] := by
  decide

/-! ## Malformed input lines -/

/-- C20. Malformed rows: for every engine state and every data line that
`parseLine` splits into fewer than 15 fields, `processFile` skips the line:
the loop body returns the engine state as it was (same book, pending-trade
list, row index and output) without decoding anything, and the loop goes on
with the next line, so the file gives the same result as without that line. -/
theorem malformed_line_skipped (stoi : String → Option Int) (stod : String → Option Price)
    (r : OrderBookReconstructor) (line : String) (rest : List String)
    (h : (CSVParser.parseLine line).length < 15) :
    processLine stoi stod r line = some r ∧
    processFileLoop stoi stod false r (line :: rest)
      = processFileLoop stoi stod false r rest ∧
    (∀ header : String, processFile stoi stod r (header :: line :: rest)
      = processFile stoi stod r (header :: rest)) := by
  have hline : processLine stoi stod r line = some r := by
    unfold processLine
    simp only
    rw [if_neg (by omega)]
  have hloop : processFileLoop stoi stod false r (line :: rest)
      = processFileLoop stoi stod false r rest := by
    rw [processFileLoop, hline]
    rfl
  refine ⟨hline, hloop, ?_⟩
  intro header
  unfold processFile
  rw [processFileLoop, processFileLoop]
  exact hloop

/-- Witness of C20: a line of three fields after the header. -/
theorem malformed_line_skipped_witness :
    (CSVParser.parseLine "a,b,c").length < 15 ∧
    processLine (fun _ => none) (fun _ => none) fresh "a,b,c" = some fresh :=
  ⟨by decide,
    (malformed_line_skipped (fun _ => none) (fun _ => none) fresh "a,b,c" [] (by decide)).1⟩

/-! ## Matching of pending trades -/

namespace OrderBookReconstructor

/-- The first pending trade with the sequence number, and the list without it. -/
theorem first_match_split (seq : Int) (l : List PendingTrade)
    (h : ∃ t ∈ l, t.sequence = seq) :
    ∃ (l₁ : List PendingTrade) (t : PendingTrade) (l₂ : List PendingTrade),
      l = l₁ ++ t :: l₂ ∧ (∀ x ∈ l₁, x.sequence ≠ seq) ∧ t.sequence = seq ∧
      l.find? (fun t => decide (t.sequence = seq)) = some t ∧
      l.eraseP (fun t => decide (t.sequence = seq)) = l₁ ++ l₂ := by
  obtain ⟨a, ha, hseq⟩ := h
  have hp : (fun t : PendingTrade => decide (t.sequence = seq)) a = true := by
    simpa using hseq
  obtain ⟨t, l₁, l₂, h1, h2, h3, h4⟩ :=
    @List.exists_of_eraseP _ (fun t : PendingTrade => decide (t.sequence = seq)) l a ha hp
  have h1' : ∀ x ∈ l₁, x.sequence ≠ seq := fun x hx => by simpa using h1 x hx
  have h2' : t.sequence = seq := by simpa using h2
  refine ⟨l₁, t, l₂, h3, h1', h2', ?_, h4⟩
  have hnone : l₁.find? (fun t => decide (t.sequence = seq)) = none := by
    rw [List.find?_eq_none]
    intro x hx
    simpa using h1' x hx
  rw [h3, List.find?_append, hnone, List.find?_cons]
  simp [h2']

theorem matchCount_step (r : OrderBookReconstructor) (e : MBORecord) :
    (if e.action = 'C' ∧
        (r.pending_trades.find? (fun t => decide (t.sequence = e.sequence))).isSome = true
      then 1 else 0) + (processRecord r e).pending_trades.length
      = r.pending_trades.length + (if e.RecordsTrade then 1 else 0) := by
  rw [processRecord_pending]
  unfold MBORecord.RecordsTrade
  by_cases hT : e.action = 'T' ∧ e.side ≠ 'N'
  · have hC : ¬ e.action = 'C' := by rw [hT.1]; decide
    rw [if_pos hT, if_pos hT, if_neg (fun h => hC h.1), List.length_append]
    simp
  · rw [if_neg hT, if_neg hT]
    by_cases hC : e.action = 'C'
    · rw [if_pos hC]
      cases hfind : r.pending_trades.find? (fun t => decide (t.sequence = e.sequence)) with
      | none =>
        have hno : ∀ a ∈ r.pending_trades,
            ¬ (fun t : PendingTrade => decide (t.sequence = e.sequence)) a = true :=
          List.find?_eq_none.1 hfind
        rw [List.eraseP_of_forall_not hno]
        simp
      | some t =>
        have hex : ∃ x ∈ r.pending_trades, x.sequence = e.sequence :=
          ⟨t, List.mem_of_find?_eq_some hfind, by simpa using List.find?_some hfind⟩
        obtain ⟨l₁, t', l₂, h1, _, _, _, h5⟩ := first_match_split e.sequence _ hex
        rw [h5, h1]
        simp only [hC, Option.isSome_some, and_self, if_true, List.length_append,
          List.length_cons]
        omega
    · rw [if_neg hC, if_neg (fun h => hC h.1)]
      simp

theorem matchCount_balance (es : List MBORecord) (r : OrderBookReconstructor) :
    matchCount r es + (processAll r es).pending_trades.length
      = r.pending_trades.length + (es.filter (fun e => decide e.RecordsTrade)).length := by
  induction es generalizing r with
  | nil => simp [matchCount, processAll]
  | cons e rest ih =>
    have hstep : processAll r (e :: rest) = processAll (processRecord r e) rest := rfl
    have h1 := ih (processRecord r e)
    have h2 := matchCount_step r e
    rw [hstep, matchCount]
    by_cases hT : e.RecordsTrade
    · have hf : ((e :: rest).filter (fun e => decide e.RecordsTrade)).length
          = (rest.filter (fun e => decide e.RecordsTrade)).length + 1 := by
        simp [List.filter_cons, hT]
      rw [if_pos hT] at h2
      rw [hf]
      omega
    · have hf : ((e :: rest).filter (fun e => decide e.RecordsTrade)).length
          = (rest.filter (fun e => decide e.RecordsTrade)).length := by
        simp [List.filter_cons, hT]
      rw [if_neg hT] at h2
      rw [hf]
      omega

end OrderBookReconstructor

/-- C21. Single-match, destructive matching: for every engine state and every
Cancel event, if no pending trade has the event's sequence number the
pending list is unchanged; otherwise the list splits around its earliest
entry with that sequence number, the row written for the event takes its
side, price and size from exactly that entry, and the new pending list is the
old one without that entry, all other entries in their order. Hence over any
event stream the number of matches plus the number of trades still pending
equals the number of trades pending at the start plus the number recorded:
no pending trade is matched twice. -/
theorem single_destructive_match (r : OrderBookReconstructor) (e : MBORecord)
    (hC : e.action = 'C') :
    ((∀ t ∈ r.pending_trades, t.sequence ≠ e.sequence) →
      (processRecord r e).pending_trades = r.pending_trades) ∧
    ((∃ t ∈ r.pending_trades, t.sequence = e.sequence) →
      ∃ (l₁ : List PendingTrade) (t : PendingTrade) (l₂ : List PendingTrade),
        r.pending_trades = l₁ ++ t :: l₂ ∧ (∀ x ∈ l₁, x.sequence ≠ e.sequence) ∧
        t.sequence = e.sequence ∧
        (processRecord r e).pending_trades = l₁ ++ l₂ ∧
        (processRecord r e).pending_trades.length + 1 = r.pending_trades.length ∧
        ∃ row : Row, emitted r e = [row] ∧ row.action = 'T' ∧ row.side = t.actual_side ∧
          row.price = priceColumn t.price ∧ row.size = t.size) ∧
    (∀ es : List MBORecord,
      matchCount r es + (processAll r es).pending_trades.length
        = r.pending_trades.length + (es.filter (fun e => decide e.RecordsTrade)).length ∧
      matchCount r es
        ≤ r.pending_trades.length + (es.filter (fun e => decide e.RecordsTrade)).length) := by
  have hT : ¬ (e.action = 'T' ∧ e.side ≠ 'N') := by
    intro h
    rw [hC] at h
    exact absurd h.1 (by decide)
  have hpend := processRecord_pending r e
  rw [if_neg hT, if_pos hC] at hpend
  refine ⟨?_, ?_, ?_⟩
  · intro hno
    rw [hpend, List.eraseP_of_forall_not]
    intro t ht
    simpa using hno t ht
  · intro hex
    obtain ⟨l₁, t, l₂, h1, h2, h3, h4, h5⟩ := first_match_split e.sequence _ hex
    refine ⟨l₁, t, l₂, h1, h2, h3, by rw [hpend, h5], ?_, _,
      emitted_trade_cancel r e t hC h4, rfl, rfl, rfl, rfl⟩
    rw [hpend, h5, h1]
    simp only [List.length_append, List.length_cons]
    omega
  · intro es
    have := matchCount_balance es r
    exact ⟨this, by omega⟩

/-- Witness of C21: of two pending trades with sequence 7 and one with
sequence 8, the Cancel with sequence 7 removes the first. -/
theorem single_destructive_match_witness :
    (processRecord
      (processAll fresh [sampleRecord 'T' 'B' 11 100 0 7, sampleRecord 'T' 'A' 9 50 0 8,
        sampleRecord 'T' 'B' 12 30 0 7])
      (sampleRecord 'C' 'A' 11 100 2 7)).pending_trades
      = [pendingOf (sampleRecord 'T' 'A' 9 50 0 8), pendingOf (sampleRecord 'T' 'B' 12 30 0 7)] ∧
    ((∀ t ∈ (processAll fresh [sampleRecord 'T' 'B' 11 100 0 7, sampleRecord 'T' 'A' 9 50 0 8,
        sampleRecord 'T' 'B' 12 30 0 7]).pending_trades,
        t.sequence ≠ (sampleRecord 'C' 'A' 11 100 2 7).sequence) →
      (processRecord
        (processAll fresh [sampleRecord 'T' 'B' 11 100 0 7, sampleRecord 'T' 'A' 9 50 0 8,
          sampleRecord 'T' 'B' 12 30 0 7])
        (sampleRecord 'C' 'A' 11 100 2 7)).pending_trades
      = (processAll fresh [sampleRecord 'T' 'B' 11 100 0 7, sampleRecord 'T' 'A' 9 50 0 8,
          sampleRecord 'T' 'B' 12 30 0 7]).pending_trades) :=
  ⟨by decide,
    (single_destructive_match
      (processAll fresh [sampleRecord 'T' 'B' 11 100 0 7, sampleRecord 'T' 'A' 9 50 0 8,
        sampleRecord 'T' 'B' 12 30 0 7])
      (sampleRecord 'C' 'A' 11 100 2 7) rfl).1⟩

/-- C23. For every book and every order id, new price and new size,
`modifyOrder` leaves the book in exactly the state that `cancelOrder` alone
would: the lookup made after the cancel never finds the order, so nothing is
added again; the order is not live afterwards, and for an id that is not in
the index the call changes nothing. -/
theorem modifyOrder_is_cancelOrder (b : OrderBook) (order_id : Int) (new_price : Price)
    (new_size : Int) :
    b.modifyOrder order_id new_price new_size = b.cancelOrder order_id ∧
    (b.cancelOrder order_id).orders.find order_id = none ∧
    (b.modifyOrder order_id new_price new_size).orders.find order_id = none ∧
    (b.orders.find order_id = none → b.modifyOrder order_id new_price new_size = b) := by
  have hnone : (b.cancelOrder order_id).orders.find order_id = none := by
    cases h : b.orders.find order_id with
    | none => rw [cancelOrder_of_not_live b order_id h]; exact h
    | some o => rw [orders_cancelOrder b order_id o h, SortedMap.find_erase, if_pos rfl]
  refine ⟨modifyOrder_eq b order_id new_price new_size, hnone, ?_, ?_⟩
  · rw [modifyOrder_eq]
    exact hnone
  · intro h
    rw [modifyOrder_eq, cancelOrder_of_not_live b order_id h]

/-! ## Round trip of `addOrder` and `cancelOrder` -/

namespace OrderBook

theorem levelAt_add_cancel (b : OrderBook) (order_id : Int) (side : Char) (price : Price)
    (size : Int)
    (hbids : ∀ e ∈ b.bids.entries, 0 < e.2.size) (hasks : ∀ e ∈ b.asks.entries, 0 < e.2.size)
    (hside : side = 'B' ∨ side = 'A') (s : Char) (p : Price) :
    ((b.addOrder order_id side price size).cancelOrder order_id).levelAt s p
      = b.levelAt s p := by
  have hlive : (b.addOrder order_id side price size).orders.find order_id
      = some ⟨order_id, side, price, size⟩ := by
    rw [orders_addOrder, SortedMap.find_insert, if_pos rfl]
  rw [levelAt_cancelOrder _ order_id _ hlive, levelAt_addOrder]
  by_cases hc : s = side ∧ p = price
  · obtain ⟨hs, hp⟩ := hc
    subst hs
    subst hp
    rw [if_pos ⟨rfl, rfl⟩, if_pos ⟨hside, rfl, rfl⟩]
    simp only
    unfold levelSize levelCount
    cases hl : b.levelAt s p with
    | none =>
      simp only
      have hz : wrapInt (wrapInt (0 + size) - size) ≤ 0 := by
        unfold wrapInt
        omega
      rw [if_pos hz]
    | some l =>
      have hpos : 0 < l.size ∧ l.price = p := by
        rcases mem_of_levelAt b s p l hl with ⟨_, hm⟩ | ⟨_, hm⟩
        · exact ⟨hbids _ hm, b.bids_keyed _ hm⟩
        · exact ⟨hasks _ hm, b.asks_keyed _ hm⟩
      have hr := range_of_levelAt b s p l hl
      unfold intMin intMax at hr
      simp only
      have h1 : wrapInt (wrapInt (l.size + size) - size) = l.size := by
        unfold wrapInt
        omega
      have h2 : wrapInt (wrapInt (l.count + 1) - 1) = l.count := by
        unfold wrapInt
        omega
      have hz : ¬ wrapInt (wrapInt (l.size + size) - size) ≤ 0 := by
        rw [h1]
        omega
      rw [if_neg hz, h1, h2, ← hpos.2]
  · rw [if_neg hc, if_neg (fun h => hc h.2)]

end OrderBook

/-- C24. Add/cancel round trip: for every book in which every present level
has size `> 0`, every order id that is not live in it, every side `'B'` or
`'A'`, every price and every size (in particular every size `> 0`),
`addOrder` followed by `cancelOrder` of the same id gives back the same book:
same bids, same asks and same order index. -/
theorem add_cancel_round_trip (b : OrderBook) (order_id : Int) (side : Char) (price : Price)
    (size : Int)
    (hbids : ∀ e ∈ b.bids.entries, 0 < e.2.size) (hasks : ∀ e ∈ b.asks.entries, 0 < e.2.size)
    (hfresh : b.orders.find order_id = none) (hside : side = 'B' ∨ side = 'A') :
    (b.addOrder order_id side price size).cancelOrder order_id = b ∧
    ((b.addOrder order_id side price size).cancelOrder order_id).bids = b.bids ∧
    ((b.addOrder order_id side price size).cancelOrder order_id).asks = b.asks ∧
    ((b.addOrder order_id side price size).cancelOrder order_id).orders = b.orders := by
  have hlive : (b.addOrder order_id side price size).orders.find order_id
      = some ⟨order_id, side, price, size⟩ := by
    rw [orders_addOrder, SortedMap.find_insert, if_pos rfl]
  have hb : ((b.addOrder order_id side price size).cancelOrder order_id).bids = b.bids := by
    apply SortedMap.ext
    intro p
    rw [← levelAt_bids, ← levelAt_bids]
    exact levelAt_add_cancel b order_id side price size hbids hasks hside 'B' p
  have ha : ((b.addOrder order_id side price size).cancelOrder order_id).asks = b.asks := by
    apply SortedMap.ext
    intro p
    rw [← levelAt_asks, ← levelAt_asks]
    exact levelAt_add_cancel b order_id side price size hbids hasks hside 'A' p
  have ho : ((b.addOrder order_id side price size).cancelOrder order_id).orders
      = b.orders := by
    apply SortedMap.ext
    intro k
    rw [orders_cancelOrder _ order_id _ hlive, SortedMap.find_erase, orders_addOrder,
      SortedMap.find_insert]
    by_cases hk : k = order_id
    · rw [if_pos hk, hk, hfresh]
    · rw [if_neg hk, if_neg hk]
  exact ⟨eq_of_parts hb ha ho, hb, ha, ho⟩

/-- Witness of C24: a second buy order added at the price of a resting one
and cancelled again. -/
theorem add_cancel_round_trip_witness :
    ((OrderBook.empty.addOrder 1 'B' 10 100).addOrder 2 'B' 10 40).cancelOrder 2
      = OrderBook.empty.addOrder 1 'B' 10 100 :=
  (add_cancel_round_trip (OrderBook.empty.addOrder 1 'B' 10 100) 2 'B' 10 40
    (by decide) (by decide) (by decide) (Or.inl rfl)).1

/-! ## Conservation under well-formed input -/

namespace OrderBook

theorem allKnownSides_addOrder (b : OrderBook) (order_id : Int) (side : Char) (price : Price)
    (size : Int) (h : AllKnownSides b) (hside : side = 'B' ∨ side = 'A') :
    AllKnownSides (b.addOrder order_id side price size) := by
  intro e he
  rw [orders_addOrder] at he
  rcases mem_insertEntry _ _ _ _ e he with he | he
  · rw [he]; exact hside
  · exact h e he

theorem allKnownSides_cancelOrder (b : OrderBook) (order_id : Int) (h : AllKnownSides b) :
    AllKnownSides (b.cancelOrder order_id) := by
  cases hf : b.orders.find order_id with
  | none => rw [cancelOrder_of_not_live b order_id hf]; exact h
  | some o =>
    intro e he
    rw [orders_cancelOrder b order_id o hf] at he
    exact h e (mem_eraseEntry _ _ e he)

theorem allKnownSides_run (calls : List BookCall) (b : OrderBook) (h : AllKnownSides b)
    (hf : BookCall.FreshAdds b calls) (hs : ∀ c ∈ calls, c.KnownSide) :
    AllKnownSides (BookCall.run b calls) := by
  induction calls generalizing b with
  | nil => exact h
  | cons c rest ih =>
    unfold BookCall.run
    rw [List.foldl_cons]
    have hc := hs c (List.mem_cons_self _ _)
    have hrest : ∀ c' ∈ rest, c'.KnownSide := fun c' hc' => hs c' (List.mem_cons_of_mem _ hc')
    cases c with
    | add order_id side price size =>
      exact ih _ (allKnownSides_addOrder b order_id side price size h hc) hf.2.2 hrest
    | cancel order_id => exact ih _ (allKnownSides_cancelOrder b order_id h) hf hrest
    | modify order_id new_price new_size => exact absurd hf (by simp [BookCall.FreshAdds])
    | clear => exact absurd hf (by simp [BookCall.FreshAdds])

theorem freshAdds_take (calls : List BookCall) (b : OrderBook)
    (hf : BookCall.FreshAdds b calls) (n : Nat) : BookCall.FreshAdds b (calls.take n) := by
  induction calls generalizing b n with
  | nil => rw [List.take_nil]; exact hf
  | cons c rest ih =>
    cases n with
    | zero => exact trivial
    | succ n =>
      rw [List.take_succ_cons]
      cases c with
      | add order_id side price size => exact ⟨hf.1, hf.2.1, ih _ hf.2.2 n⟩
      | cancel order_id => exact ih _ hf n
      | modify order_id new_price new_size => exact absurd hf (by simp [BookCall.FreshAdds])
      | clear => exact absurd hf (by simp [BookCall.FreshAdds])

theorem fits_take (calls : List BookCall) (b : OrderBook)
    (hfit : BookCall.Fits b calls) (n : Nat) : BookCall.Fits b (calls.take n) := by
  induction calls generalizing b n with
  | nil => rw [List.take_nil]; exact hfit
  | cons c rest ih =>
    cases n with
    | zero => exact trivial
    | succ n =>
      rw [List.take_succ_cons]
      cases c with
      | add order_id side price size => exact ⟨hfit.1, ih _ hfit.2 n⟩
      | cancel order_id => exact ih _ hfit n
      | modify order_id new_price new_size => exact ih _ hfit n
      | clear => exact ih _ hfit n

theorem liveOrders_of_unknown_side (b : OrderBook) (h : AllKnownSides b) (s : Char)
    (hB : ¬ s = 'B') (hA : ¬ s = 'A') (p : Price) : b.liveOrders s p = [] := by
  unfold liveOrders
  rw [List.filter_eq_nil_iff]
  intro o ho
  rcases List.mem_map.1 ho with ⟨e, he, rfl⟩
  have := h e he
  intro hc
  have hside : e.2.side = s := (of_decide_eq_true hc).1
  rcases this with h1 | h1
  · exact hB (hside.symm.trans h1)
  · exact hA (hside.symm.trans h1)

end OrderBook

/-- C22, as the code has it. Conservation under well-formed input: for every
sequence of `addOrder` and `cancelOrder` calls applied to an empty book in
which every `addOrder` uses an order id that is not live at that moment, a
side `'B'` or `'A'` and a size `> 0`, and in which no `addOrder` raises the
size of its level above 2147483647 (the largest `int`), after every call
(after the first `n` calls, for every `n`) and for each side and price, the
size of the level (0 when there is none) equals the sum of the sizes of the
live orders at that price on that side, the count of the level equals the
number of those orders, and a level is present there exactly when at least
one live order rests there. -/
theorem conservation_well_formed (calls : List BookCall)
    (hf : BookCall.FreshAdds OrderBook.empty calls) (hs : ∀ c ∈ calls, c.KnownSide)
    (hfit : BookCall.Fits OrderBook.empty calls)
    (n : Nat) (side : Char) (price : Price) :
    (BookCall.run OrderBook.empty (calls.take n)).levelSize side price
      = (BookCall.run OrderBook.empty (calls.take n)).liveSize side price ∧
    (BookCall.run OrderBook.empty (calls.take n)).levelCount side price
      = (BookCall.run OrderBook.empty (calls.take n)).liveCount side price ∧
    (((BookCall.run OrderBook.empty (calls.take n)).levelAt side price).isSome = true ↔
      (BookCall.run OrderBook.empty (calls.take n)).liveOrders side price ≠ []) := by
  have hf' := freshAdds_take calls OrderBook.empty hf n
  have hs' : ∀ c ∈ calls.take n, c.KnownSide := fun c hc => hs c (List.mem_of_mem_take hc)
  have hinv := levelsExact_run (calls.take n) OrderBook.empty levelsExact_empty hf'
    (fits_take calls OrderBook.empty hfit n)
  have hknown := allKnownSides_run (calls.take n) OrderBook.empty
    (fun e he => absurd he (List.not_mem_nil _)) hf' hs'
  generalize BookCall.run OrderBook.empty (calls.take n) = b at hinv hknown ⊢
  have hne : b.liveOrders side price ≠ [] ↔ b.liveCount side price ≠ 0 := by
    unfold liveCount
    rw [Ne, Ne, ← List.length_eq_zero]
    omega
  have g2 := liveSize_of_liveCount_zero b side price
  have g1 := liveCount_nonneg b side price
  by_cases hside : side = 'B' ∨ side = 'A'
  · obtain ⟨hn, hsome⟩ := hinv.2 side price hside
    unfold levelSize levelCount
    cases hl : b.levelAt side price with
    | none =>
      have h0 := hn hl
      refine ⟨?_, ?_, ?_⟩
      · simp only; omega
      · simp only; omega
      · rw [hne]
        simp only [Option.isSome_none, Bool.false_eq_true, false_iff, ne_eq, not_not]
        exact h0
    | some l =>
      obtain ⟨a1, a2, a3⟩ := hsome l hl
      refine ⟨a1, a2, ?_⟩
      rw [hne]
      simp only [Option.isSome_some, true_iff]
      intro h0
      have := g2 h0
      omega
  · have hB : ¬ side = 'B' := fun h => hside (Or.inl h)
    have hA : ¬ side = 'A' := fun h => hside (Or.inr h)
    have hnil := liveOrders_of_unknown_side b hknown side hB hA price
    have hlev : b.levelAt side price = none := by
      unfold levelAt
      rw [if_neg hB, if_neg hA]
    unfold levelSize levelCount liveSize liveCount
    rw [hlev, hnil]
    simp

/-- Witness of the amended C22: two buy orders at price 10 and a sell order,
the first buy order cancelled; the state after all four calls. -/
theorem conservation_well_formed_witness :
    BookCall.FreshAdds OrderBook.empty
      [BookCall.add 1 'B' 10 100, BookCall.add 2 'B' 10 50, BookCall.add 3 'A' 11 7,
        BookCall.cancel 1] ∧
    (∀ c ∈ [BookCall.add 1 'B' 10 100, BookCall.add 2 'B' 10 50, BookCall.add 3 'A' 11 7,
        BookCall.cancel 1], c.KnownSide) ∧
    BookCall.Fits OrderBook.empty
      [BookCall.add 1 'B' 10 100, BookCall.add 2 'B' 10 50, BookCall.add 3 'A' 11 7,
        BookCall.cancel 1] ∧
    (BookCall.run OrderBook.empty
      ([BookCall.add 1 'B' 10 100, BookCall.add 2 'B' 10 50, BookCall.add 3 'A' 11 7,
        BookCall.cancel 1].take 4)).levelCount 'B' 10
      = (BookCall.run OrderBook.empty
      ([BookCall.add 1 'B' 10 100, BookCall.add 2 'B' 10 50, BookCall.add 3 'A' 11 7,
        BookCall.cancel 1].take 4)).liveCount 'B' 10 :=
  ⟨by decide, by decide, by decide,
    (conservation_well_formed
      [BookCall.add 1 'B' 10 100, BookCall.add 2 'B' 10 50, BookCall.add 3 'A' 11 7,
        BookCall.cancel 1] (by decide) (by decide) (by decide) 4 'B' 10).2.1⟩

/-- Counterexample to C22 as stated. The calls `addOrder 1 'B' 10 2147483647`
and `addOrder 2 'B' 10 1` use fresh ids, side `'B'` and sizes `> 0`; after the
second call the `int` of the bid level at price 10 has wrapped to -2147483648
while the live orders at that price have sizes that sum to 2147483648. -/
theorem conservation_well_formed_fails_on_overflow :
    BookCall.FreshAdds OrderBook.empty
      [BookCall.add 1 'B' 10 2147483647, BookCall.add 2 'B' 10 1] ∧
    (∀ c ∈ [BookCall.add 1 'B' 10 2147483647, BookCall.add 2 'B' 10 1], c.KnownSide) ∧
    (BookCall.run OrderBook.empty
      ([BookCall.add 1 'B' 10 2147483647, BookCall.add 2 'B' 10 1].take 2)).levelAt 'B' 10
      = some ⟨10, -2147483648, 2⟩ ∧
    (BookCall.run OrderBook.empty
      ([BookCall.add 1 'B' 10 2147483647, BookCall.add 2 'B' 10 1].take 2)).liveSize 'B' 10
      = 2147483648 ∧
    ¬ ((BookCall.run OrderBook.empty
      ([BookCall.add 1 'B' 10 2147483647, BookCall.add 2 'B' 10 1].take 2)).levelSize 'B' 10
      = (BookCall.run OrderBook.empty
      ([BookCall.add 1 'B' 10 2147483647, BookCall.add 2 'B' 10 1].take 2)).liveSize 'B' 10) := by
  decide

end OrderBookReconstruction
